import Mathlib

/-!
Shallow embedding of the raytracing-potato renderer core (Rust) in Lean 4.

Numbers: the Rust code computes with `f64`; the embedding uses exact rational
arithmetic (`ℚ`).  The transcendental operations the code uses (`sqrt`,
`atan2`, `asin`) are not rational, so they are passed in as an explicit
record `MathFns`; theorems quantify over it (adding the properties they need
as hypotheses) and witnesses instantiate it with computable rational
approximations that are exact on the concrete inputs used.

Rust panics (`unreachable!`, `assert!`, out-of-range indexing, the explicit
`panic!` in `Hittable::bounding_box`) are modelled by `Option`, with `none`
for the panic.  Out-of-range table indexing inside an intersection test is
modelled as a miss (`none` of the hit), restricting claims to index-valid
scenes where it matters.
-/

namespace RT

/-- `Rvec3` from utility.rs: `nalgebra::Vector3<Real>` with `Real = f64`,
modelled over ℚ. -/
structure Rvec3 where
  x : ℚ
  y : ℚ
  z : ℚ
  deriving DecidableEq, Repr

/-- `Rvec2` from utility.rs. -/
structure Rvec2 where
  x : ℚ
  y : ℚ
  deriving DecidableEq, Repr

namespace Rvec3

instance : Add Rvec3 := ⟨fun a b => ⟨a.x + b.x, a.y + b.y, a.z + b.z⟩⟩
instance : Sub Rvec3 := ⟨fun a b => ⟨a.x - b.x, a.y - b.y, a.z - b.z⟩⟩
instance : Neg Rvec3 := ⟨fun a => ⟨-a.x, -a.y, -a.z⟩⟩
instance : SMul ℚ Rvec3 := ⟨fun k a => ⟨k * a.x, k * a.y, k * a.z⟩⟩

/-- `nalgebra` dot product. -/
def dot (a b : Rvec3) : ℚ := a.x * b.x + a.y * b.y + a.z * b.z

/-- `nalgebra` `norm_squared`. -/
def norm_squared (a : Rvec3) : ℚ := dot a a

/-- `nalgebra` `component_mul`. -/
def component_mul (a b : Rvec3) : Rvec3 := ⟨a.x * b.x, a.y * b.y, a.z * b.z⟩

/-- The zero vector (`Rvec3::zeros`, also `Default`). -/
def zero : Rvec3 := ⟨0, 0, 0⟩

end Rvec3

namespace Rvec2

instance : Add Rvec2 := ⟨fun a b => ⟨a.x + b.x, a.y + b.y⟩⟩
instance : SMul ℚ Rvec2 := ⟨fun k a => ⟨k * a.x, k * a.y⟩⟩

/-- The zero vector. -/
def zero : Rvec2 := ⟨0, 0⟩

end Rvec2

/-- `Color` from utility.rs: `nalgebra::Vector4<Real>` (r, g, b, a). -/
structure Color where
  r : ℚ
  g : ℚ
  b : ℚ
  a : ℚ
  deriving DecidableEq, Repr

namespace Color

instance : Add Color := ⟨fun u v => ⟨u.r + v.r, u.g + v.g, u.b + v.b, u.a + v.a⟩⟩
instance : SMul ℚ Color := ⟨fun k v => ⟨k * v.r, k * v.g, k * v.b, k * v.a⟩⟩

/-- `nalgebra` `component_mul` on colors (used by the path tracer). -/
def component_mul (u v : Color) : Color := ⟨u.r * v.r, u.g * v.g, u.b * v.b, u.a * v.a⟩

end Color

/-- `rgb` from utility.rs: a color with alpha 1. -/
def rgb (r g b : ℚ) : Color := ⟨r, g, b, 1⟩

/-- The transcendental `f64` operations used by the code, supplied abstractly:
`sqrt` (sphere intersection, vector normalization), `atan2` and `asin`
(spherical UV coordinates). -/
structure MathFns where
  sqrt : ℚ → ℚ
  atan2 : ℚ → ℚ → ℚ
  asin : ℚ → ℚ

/-- A computable rational square root: exact on perfect squares (numerator and
denominator both perfect squares), used to instantiate `MathFns` in witnesses. -/
def ratSqrt (q : ℚ) : ℚ :=
  if q ≤ 0 then 0 else (Nat.sqrt q.num.toNat : ℚ) / (Nat.sqrt q.den : ℚ)

theorem ratSqrt_nonneg (q : ℚ) : 0 ≤ ratSqrt q := by
  unfold ratSqrt
  split
  · exact le_refl 0
  · positivity

/-- Default instantiation of `MathFns` for concrete evaluation: `ratSqrt` for
`sqrt`, and the zero function for the two inverse trigonometric functions
(they only feed texture coordinates, never control flow). -/
def defaultFns : MathFns := ⟨ratSqrt, fun _ _ => 0, fun _ => 0⟩

/-- `nalgebra` `normalize`: divide by the norm (a square root, taken from
`MathFns`). -/
def Rvec3.normalize (F : MathFns) (v : Rvec3) : Rvec3 :=
  (1 / F.sqrt v.norm_squared) • v

/-- `TAU` (2π) and `PI` appear only in the spherical UV formula; they are
rational placeholders there (the UV value is inexact in the embedding, and no
claim depends on it). -/
def TAU : ℚ := 710 / 113

/-- Rational placeholder for π (see `TAU`). -/
def PI : ℚ := 355 / 113

/-- `RAY_EPSILON` from utility.rs. -/
def RAY_EPSILON : ℚ := 1 / 1000

/-- Modelled from the spec: the near-zero determinant threshold `SMOL`
(~1e-9) used by the triangle intersection; its definition is in a part of
utility.rs missing from the snapshot. -/
def SMOL : ℚ := 1 / 1000000000

/-- `Ray` from utility.rs.  `t_max` is set to `f64::INFINITY` for camera and
scattered rays and is only ever compared or `min`-ed, never used in
arithmetic, so it is modelled as `WithTop ℚ` (`⊤` = `INFINITY`). -/
structure Ray where
  origin : Rvec3
  direction : Rvec3
  t_min : ℚ
  t_max : WithTop ℚ
  deriving DecidableEq

/-- `RayExpanded` from utility.rs: a ray with the cached componentwise
reciprocal of its direction. -/
structure RayExpanded where
  inner : Ray
  inv_direction : Rvec3
  deriving DecidableEq

namespace Ray

/-- `Ray::at` (`at` is a Lean keyword, hence the prime). -/
def at' (r : Ray) (t : ℚ) : Rvec3 := r.origin + t • r.direction

/-- `Ray::expand`. -/
def expand (r : Ray) : RayExpanded :=
  { inner := r
    inv_direction := ⟨1 / r.direction.x, 1 / r.direction.y, 1 / r.direction.z⟩ }

end Ray

/-- Modelled from the spec: the `Hit` record (intersection parameter,
position, unit normal, texture coordinate); its declaration is in a part of
utility.rs missing from the snapshot, but every construction site in
hittable.rs uses exactly these four fields. -/
structure Hit where
  t : ℚ
  position : Rvec3
  normal : Rvec3
  uv : Rvec2
  deriving DecidableEq, Repr

/-- Modelled from the spec: `Hit::at_infinity` builds the hit record handed
to the background emission for rays that miss the scene ("a point at
infinity along the ray direction"); only called with the ray direction. -/
def Hit.at_infinity (direction : Rvec3) : Hit :=
  { t := 0, position := direction, normal := direction, uv := Rvec2.zero }

/-- `AABB` from utility.rs. -/
structure AABB where
  min : Rvec3
  max : Rvec3
  deriving DecidableEq, Repr

namespace AABB

/-- `AABB::default()`: both corners zero. -/
def default : AABB := ⟨Rvec3.zero, Rvec3.zero⟩

/-- `AABB::union`. -/
def union (s o : AABB) : AABB :=
  { min := ⟨s.min.x ⊓ o.min.x, s.min.y ⊓ o.min.y, s.min.z ⊓ o.min.z⟩
    max := ⟨s.max.x ⊔ o.max.x, s.max.y ⊔ o.max.y, s.max.z ⊔ o.max.z⟩ }

/-- `AABB::collide`: the slab test against an expanded ray. -/
def collide (s : AABB) (ray : RayExpanded) : Bool :=
  let t0 := (s.min - ray.inner.origin).component_mul ray.inv_direction
  let t1 := (s.max - ray.inner.origin).component_mul ray.inv_direction
  let tmin := ray.inner.t_min ⊔ (t0.x ⊓ t1.x) ⊔ (t0.y ⊓ t1.y) ⊔ (t0.z ⊓ t1.z)
  let tmax := ray.inner.t_max ⊓ ↑(t0.x ⊔ t1.x) ⊓ ↑(t0.y ⊔ t1.y) ⊓ ↑(t0.z ⊔ t1.z)
  tmax > (tmin : WithTop ℚ)

end AABB

/-- `hit_sphere` from hittable.rs.  The material id (`MaterialId`, a `u32`
newtype whose declaration is missing from the snapshot) is modelled as ℕ. -/
def hit_sphere (F : MathFns) (center : Rvec3) (radius : ℚ) (material : ℕ)
    (ray : Ray) : Option (Hit × ℕ) :=
  let to_center := ray.origin - center
  let a := ray.direction.norm_squared
  let half_b := ray.direction.dot to_center
  let c := to_center.norm_squared - radius * radius
  let delta := half_b * half_b - a * c
  if delta ≤ 0 then none
  else
    let sqrt_delta := F.sqrt delta
    let t₁ := (-half_b - sqrt_delta) / a
    let t₂ := (-half_b + sqrt_delta) / a
    let t? : Option ℚ :=
      if t₁ < ray.t_min ∨ (t₁ : WithTop ℚ) > ray.t_max then
        if t₂ < ray.t_min ∨ (t₂ : WithTop ℚ) > ray.t_max then none else some t₂
      else some t₁
    t?.map fun t =>
      let position := ray.at' t
      let normal := (position - center).normalize F
      let uv : Rvec2 := ⟨1/2 - F.atan2 normal.z normal.x / TAU, F.asin normal.y / PI + 1/2⟩
      (⟨t, position, normal, uv⟩, material)

/-- `Vertex` from mesh.rs. -/
structure Vertex where
  position : Rvec3
  normal : Rvec3
  uv : Rvec2
  deriving DecidableEq, Repr

/-- `Mesh` from mesh.rs.  `MaterialId` and the `u32` vertex indices are
modelled as ℕ. -/
structure Mesh where
  vertices : List Vertex
  indices : List ℕ
  material : ℕ

/-- `Scatter` from material.rs. -/
inductive Scatter where
  | None
  | Lambert
  | Metal (fuzziness : ℚ)
  | Dielectric (refraction_index : ℚ)

/-- `Emit` from material.rs. -/
inductive Emit where
  | None
  | SkyBackground
  | Normal

/-- `Absorb` from material.rs.  `TextureId` is modelled as ℕ. -/
inductive Absorb where
  | BlackBody
  | WhiteBody
  | Albedo (color : Color)
  | AlbedoMap (tid : ℕ)

/-- `Material` from material.rs. -/
structure Material where
  scatter : Scatter
  absorb : Absorb
  emit : Emit

/-- `Texture` from texture.rs.  `TextureId` is modelled as ℕ, the noise seed
(`isize`) as ℤ. -/
inductive Texture where
  | Missing
  | Solid (color : Color)
  | Checker (odd even : ℕ)
  | Noise (seed : ℤ)
  | Perlin (seed : ℤ)

/-- `SceneData` from render.rs. -/
structure SceneData where
  material_table : List Material
  texture_table : List Texture
  mesh_table : List Mesh

/-- `Mesh::get_triangle` from mesh.rs; out-of-range indexing (a Rust panic)
is `none`. -/
def Mesh.get_triangle (m : Mesh) (triangle : ℕ) : Option (Vertex × Vertex × Vertex) := do
  let ia ← m.indices[triangle + 0]?
  let ib ← m.indices[triangle + 1]?
  let ic ← m.indices[triangle + 2]?
  let a ← m.vertices[ia]?
  let b ← m.vertices[ib]?
  let c ← m.vertices[ic]?
  pure (a, b, c)

/-- `hit_triangle` from hittable.rs: Cramer-rule solve of
`[a-b  a-c  d] [u v t]ᵀ = a-p`; out-of-range table indexing (a Rust panic)
is modelled as a miss. -/
def hit_triangle (triangle mesh : ℕ) (ray : Ray) (sd : SceneData) : Option (Hit × ℕ) :=
  match sd.mesh_table[mesh]? with
  | .none => none
  | .some m =>
    match m.get_triangle triangle with
    | .none => none
    | .some (v₀, v₁, v₂) =>
      let a := v₀.position
      let b := v₁.position
      let c := v₂.position
      let ba := a - b
      let ca := a - c
      let pa := a - ray.origin
      let d := ray.direction
      let det := ba.x * ca.y * d.z + ba.y * ca.z * d.x + ba.z * ca.x * d.y
               - ba.x * ca.z * d.y - ba.y * ca.x * d.z - ba.z * ca.y * d.x
      if |det| < SMOL then none
      else
        let inv_det := 1 / det
        let t := (pa.x * (ba.y * ca.z - ba.z * ca.y)
                + pa.y * (ba.z * ca.x - ba.x * ca.z)
                + pa.z * (ba.x * ca.y - ba.y * ca.x)) * inv_det
        let u := (pa.x * (ca.y * d.z - ca.z * d.y)
                + pa.y * (ca.z * d.x - ca.x * d.z)
                + pa.z * (ca.x * d.y - ca.y * d.x)) * inv_det
        let v := (pa.x * (ba.z * d.y - ba.y * d.z)
                + pa.y * (ba.x * d.z - ba.z * d.x)
                + pa.z * (ba.y * d.x - ba.x * d.y)) * inv_det
        let w := 1 - u - v
        if t < ray.t_min ∨ (t : WithTop ℚ) > ray.t_max ∨ u < 0 ∨ v < 0 ∨ w < 0 then none
        else
          let position := ray.at' t
          let normal := w • v₀.normal + u • v₁.normal + v • v₂.normal
          let uv := w • v₀.uv + u • v₁.uv + v • v₂.uv
          some (⟨t, position, normal, uv⟩, m.material)

/-- `BvhNode` from bvh.rs (`NodeId`/`LeafId` modelled as ℕ). -/
inductive BvhNode where
  | Branch (aabb : AABB) (left right : ℕ)
  | Leaf (aabb : AABB) (leaf : ℕ)
  deriving DecidableEq, Repr

/-- `BvhNode::bounding_box`. -/
def BvhNode.bounding_box : BvhNode → AABB
  | .Branch aabb _ _ => aabb
  | .Leaf aabb _ => aabb

/-- `Hittable` from hittable.rs.  The `Bvh` variant inlines the fields of the
Rust `Bvh` struct (leaf table, node table, root index) because Lean structures
cannot be mutually inductive with `Hittable`. -/
inductive Hittable where
  | Sphere (center : Rvec3) (radius : ℚ) (material : ℕ)
  | Triangle (triangle mesh : ℕ)
  | list (l : List Hittable)
  | Bvh (leaves : List Hittable) (nodes : List BvhNode) (root : ℕ)

mutual

/-- `Hittable::hit` from hittable.rs: dispatch on the variant. -/
def Hittable.hit (F : MathFns) (sd : SceneData) (h : Hittable) (ray : Ray) :
    Option (Hit × ℕ) :=
  match h with
  | .Sphere center radius material => hit_sphere F center radius material ray
  | .Triangle triangle mesh => hit_triangle triangle mesh ray sd
  | .list l => hit_list F sd l ray
  | .Bvh leaves nodes root => hitNode F sd leaves nodes ray.expand root
termination_by ((sizeOf h, 0, 0) : ℕ × ℕ × ℕ)
decreasing_by
  · decreasing_tactic
  · have hn : 1 ≤ sizeOf nodes := by cases nodes <;> simp <;> omega
    simp_wf
    exact Prod.Lex.left _ _ (by omega)

/-- `hit_list` from hittable.rs: iterate all members in order keeping the
hit found so far. -/
def hit_list (F : MathFns) (sd : SceneData) (l : List Hittable) (ray : Ray) :
    Option (Hit × ℕ) :=
  hitListGo F sd l ray none
termination_by ((sizeOf l, 1, 0) : ℕ × ℕ × ℕ)

/-- The `for` loop of `hit_list`: on each found hit, shrink the ray's `t_max`
to the hit's `t` and replace the current best. -/
def hitListGo (F : MathFns) (sd : SceneData) (l : List Hittable) (ray : Ray)
    (best : Option (Hit × ℕ)) : Option (Hit × ℕ) :=
  match l with
  | [] => best
  | x :: rest =>
    match Hittable.hit F sd x ray with
    | some nh => hitListGo F sd rest { ray with t_max := ↑nh.1.t } (some nh)
    | none => hitListGo F sd rest ray best
termination_by ((sizeOf l, 0, 0) : ℕ × ℕ × ℕ)

/-- `Bvh::hit_node` from bvh.rs.  The Lean recursion is on the node index:
`make_bvh` allocates children before their parent, so a branch's children
always have smaller indices; on a malformed table (where the Rust recursion
would not terminate) the added `left < node ∧ right < node` test returns
`none`.  Out-of-range node/leaf indices (Rust panics) are `none`. -/
def hitNode (F : MathFns) (sd : SceneData) (leaves : List Hittable)
    (nodes : List BvhNode) (ray : RayExpanded) (node : ℕ) : Option (Hit × ℕ) :=
  match nodes[node]? with
  | some (.Leaf aabb leaf) =>
    if aabb.collide ray then
      match hl : leaves[leaf]? with
      | some x => Hittable.hit F sd x ray.inner
      | none => none
    else none
  | some (.Branch aabb left right) =>
    if hlr : left < node ∧ right < node then
      if aabb.collide ray then
        match hitNode F sd leaves nodes ray left with
        | some lh =>
          match hitNode F sd leaves nodes
              { ray with inner := { ray.inner with t_max := ↑lh.1.t } } right with
          | some rh => some rh
          | none => some lh
        | none => hitNode F sd leaves nodes ray right
      else none
    else none
  | none => none
termination_by ((sizeOf leaves + 1, 0, node) : ℕ × ℕ × ℕ)
decreasing_by
  · simp_wf
    exact Prod.Lex.left _ _ (by
      have := List.sizeOf_lt_of_mem (List.getElem?_mem hl); omega)
  all_goals decreasing_tactic

end

/-- `Bvh::hit` from bvh.rs: expand the ray and start at the root. -/
def Bvh.hit (F : MathFns) (sd : SceneData) (leaves : List Hittable)
    (nodes : List BvhNode) (root : ℕ) (ray : Ray) : Option (Hit × ℕ) :=
  hitNode F sd leaves nodes ray.expand root

/-- `nalgebra` indexing `v[i]` on a 3-vector (panics for `i ≥ 3` in Rust;
only ever called with `sort_axis % 3`). -/
def Rvec3.axis (v : Rvec3) : ℕ → ℚ
  | 0 => v.x
  | 1 => v.y
  | 2 => v.z
  | _ => 0

/-- The centroid sort key of `split` from bvh.rs:
`0.5 * (bb.min[sort_axis] + bb.max[sort_axis])`. -/
def centroidKey (bb : AABB) (sort_axis : ℕ) : ℚ :=
  (1 / 2 : ℚ) * (bb.min.axis sort_axis + bb.max.axis sort_axis)

/-- `split` from bvh.rs: sort by bounding-box centroid along the axis, then
split at the median index.  (`sort_unstable_by` leaves the order of equal
keys unspecified; the embedding fixes it with a stable merge sort.) -/
def split (content : List (ℕ × AABB)) (sort_axis : ℕ) :
    List (ℕ × AABB) × List (ℕ × AABB) :=
  let sorted := content.mergeSort fun x y =>
    centroidKey x.2 sort_axis ≤ centroidKey y.2 sort_axis
  (sorted.take (sorted.length / 2), sorted.drop (sorted.length / 2))

/-- `make_bvh` from bvh.rs.  The node table is passed and returned
explicitly (it is `&mut Vec` in Rust); the `unreachable!()` on empty input
and out-of-range node indexing are `none`. -/
def make_bvh (content : List (ℕ × AABB)) (sort_axis : ℕ)
    (nodes : List BvhNode) : Option (ℕ × List BvhNode) :=
  match hc : content with
  | [] => none
  | [(leaf, aabb)] => some (nodes.length, nodes ++ [BvhNode.Leaf aabb leaf])
  | _ :: _ :: _ =>
    let parts := split content sort_axis
    match make_bvh parts.1 ((sort_axis + 1) % 3) nodes with
    | none => none
    | some (left, nodes₁) =>
      match make_bvh parts.2 ((sort_axis + 1) % 3) nodes₁ with
      | none => none
      | some (right, nodes₂) =>
        match nodes₂[left]?, nodes₂[right]? with
        | some ln, some rn =>
          some (nodes₂.length,
            nodes₂ ++ [BvhNode.Branch (ln.bounding_box.union rn.bounding_box) left right])
        | _, _ => none
termination_by content.length
decreasing_by
  · subst hc
    simp [split, List.length_take, List.length_mergeSort]
    omega
  · subst hc
    simp [split, List.length_drop, List.length_mergeSort]
    omega

/-- `bounding_box_sphere` from hittable.rs. -/
def bounding_box_sphere (center : Rvec3) (radius : ℚ) : AABB :=
  { min := center - ⟨radius, radius, radius⟩
    max := center + ⟨radius, radius, radius⟩ }

/-- `bounding_box_triangle` from hittable.rs (out-of-range indexing, a Rust
panic, is `none`). -/
def bounding_box_triangle (triangle mesh : ℕ) (sd : SceneData) : Option AABB :=
  match sd.mesh_table[mesh]? with
  | .none => none
  | .some m =>
    match m.get_triangle triangle with
    | .none => none
    | .some (v₀, v₁, v₂) =>
      let a := v₀.position
      let b := v₁.position
      let c := v₂.position
      some { min := ⟨a.x ⊓ b.x ⊓ c.x, a.y ⊓ b.y ⊓ c.y, a.z ⊓ b.z ⊓ c.z⟩
             max := ⟨a.x ⊔ b.x ⊔ c.x, a.y ⊔ b.y ⊔ c.y, a.z ⊔ b.z ⊔ c.z⟩ }

mutual

/-- `Hittable::bounding_box` from hittable.rs; the `panic!` on the `Bvh`
variant (and panics from invalid indices) are `none`. -/
def Hittable.bounding_box (sd : SceneData) (h : Hittable) : Option AABB :=
  match h with
  | .Sphere center radius _ => some (bounding_box_sphere center radius)
  | .Triangle triangle mesh => bounding_box_triangle triangle mesh sd
  | .list l => bounding_box_list sd l
  | .Bvh _ _ _ => none
termination_by ((sizeOf h, 0) : ℕ × ℕ)

/-- `bounding_box_list` from hittable.rs: `AABB::default()` for the empty
list, otherwise the union-fold of the members' boxes. -/
def bounding_box_list (sd : SceneData) (l : List Hittable) : Option AABB :=
  match l with
  | [] => some AABB.default
  | x :: rest =>
    match Hittable.bounding_box sd x with
    | some acc => bbListGo sd rest acc
    | none => none
termination_by ((sizeOf l, 1) : ℕ × ℕ)

/-- The fold of `bounding_box_list`. -/
def bbListGo (sd : SceneData) (l : List Hittable) (acc : AABB) : Option AABB :=
  match l with
  | [] => some acc
  | x :: rest =>
    match Hittable.bounding_box sd x with
    | some bb => bbListGo sd rest (acc.union bb)
    | none => none
termination_by ((sizeOf l, 0) : ℕ × ℕ)

end

/-- `Bvh::new` from bvh.rs: pair each hittable with its bounding box
(panics propagate) and build the tree over the pairs. -/
def Bvh.new (sd : SceneData) (hittables : List Hittable) : Option Hittable := do
  let content ← hittables.enum.mapM fun p =>
    (Hittable.bounding_box sd p.2).map fun bb => ((p.1 : ℕ), bb)
  let (root, nodes) ← make_bvh content 0 []
  pure (Hittable.Bvh hittables nodes root)

/-- Helper (not from the source): the `(leaf id, aabb)` pairs stored in the
leaves of the subtree rooted at `node`, in traversal (left-to-right) order.
Mirrors the guard of `hitNode` on malformed tables. -/
def subtreeLeaves (nodes : List BvhNode) : ℕ → List (ℕ × AABB) := fun node =>
  match nodes[node]? with
  | some (.Leaf aabb leaf) => [(leaf, aabb)]
  | some (.Branch _ left right) =>
    if left < node ∧ right < node then
      subtreeLeaves nodes left ++ subtreeLeaves nodes right
    else []
  | none => []

/-! ## image.rs: images and tiles -/

/-- `RgbaImage` from image.rs (pixels are `[u8; 4]`, modelled as 4-tuples of
ℕ; only the dimensions matter for the tiling claims). -/
structure RgbaImage where
  width : ℕ
  height : ℕ
  data : List (ℕ × ℕ × ℕ × ℕ)
  deriving DecidableEq, Repr

/-- `RgbaImage::new`. -/
def RgbaImage.new (width height : ℕ) : RgbaImage :=
  ⟨width, height, List.replicate (width * height) (0, 0, 0, 0)⟩

/-- `Tile` from image.rs. -/
structure Tile where
  pixel_offset : ℕ × ℕ
  pixels : RgbaImage
  deriving DecidableEq, Repr

/-- `Tile::new` from image.rs: the tile list covering a
`full_width × full_height` image with `tile_width × tile_height` tiles,
edge tiles clipped (`tj` outer loop, `ti` inner loop, push order). -/
def Tile.new (full_width full_height tile_width tile_height : ℕ) : List Tile :=
  let num_tiles_i := (full_width + tile_width - 1) / tile_width
  let num_tiles_j := (full_height + tile_height - 1) / tile_height
  (List.range num_tiles_j).flatMap fun tj =>
    (List.range num_tiles_i).map fun ti =>
      let pixel_offset := (ti * tile_width, tj * tile_height)
      let pixels := RgbaImage.new
        (tile_width ⊓ (full_width - pixel_offset.1))
        (tile_height ⊓ (full_height - pixel_offset.2))
      Tile.mk pixel_offset pixels

/-! ## randomness.rs: the RNG model and coherent noise -/

/-- The `Randomizer` (`rand::rngs::StdRng`): modelled as a prerecorded
stream of the `f64` samples `rng.gen::<Real>()` produces, plus a cursor.
All claims are about how the samples are used, not the generator itself. -/
structure Randomizer where
  stream : ℕ → ℚ
  pos : ℕ

/-- `rng.gen::<Real>()`: the next sample, and the advanced generator. -/
def Randomizer.gen (rng : Randomizer) : ℚ × Randomizer :=
  (rng.stream rng.pos, ⟨rng.stream, rng.pos + 1⟩)

namespace noise

/-- 64-bit wrapping reduction (`std::num::Wrapping<isize>` on a 64-bit
platform), on the unsigned two's-complement representative. -/
def wrap (n : ℕ) : ℕ := n % 2 ^ 64

/-- Unsigned representative of an `isize`. -/
def toW (z : ℤ) : ℕ := (z % 2 ^ 64).toNat

/-- Signed value of a 64-bit word. -/
def fromW (w : ℕ) : ℤ := if w < 2 ^ 63 then (w : ℤ) else (w : ℤ) - 2 ^ 64

/-- Arithmetic shift right by 13 (`h >> 13` on `isize`), on the unsigned
representative: logical shift plus sign extension. -/
def asr13 (a : ℕ) : ℕ := a / 2 ^ 13 + (if 2 ^ 63 ≤ a then 2 ^ 64 - 2 ^ 51 else 0)

/-- `noise::integer` from randomness.rs (libnoise-style coherent noise hash),
computed on 64-bit words; returns the unsigned representative. -/
def integerW (x y z seed : ℤ) : ℕ :=
  let A : ℕ := 0x369E6D3B899E43CF
  let B : ℕ := 0x53F89E7FFDA3B07D
  let C : ℕ := 0x3B13C1CA4937E629
  let D : ℕ := 0x577C2C6E4019D645
  let E : ℕ := 60493
  let F : ℕ := 19990303
  let G : ℕ := 1376312589
  let h := wrap (A * toW x + B * toW y + C * toW z + D * toW seed)
  let h := wrap (Nat.xor (asr13 h) h)
  wrap (h * wrap (h * h * E + F) + G)

/-- `noise::integer` as a signed value. -/
def integer (x y z seed : ℤ) : ℤ := fromW (integerW x y z seed)

/-- `noise::real` from randomness.rs: `integer(..) as Real / isize::MAX`
(the lossy `i64 → f64` cast is exact in the rational model). -/
def real (x y z seed : ℤ) : ℚ := (integer x y z seed : ℚ) / ((2 : ℚ) ^ 63 - 1)

end noise

/-! ## texture.rs -/

/-- `sample_noise` from texture.rs. -/
def sample_noise (hit : Hit) (seed : ℤ) : Color :=
  let p := hit.position
  let x := noise.real ⌊p.x⌋ ⌊p.y⌋ ⌊p.z⌋ seed
  let x := 1/2 * x + 1/2
  rgb x x x

/-- `grad_dot` from texture.rs. -/
def grad_dot (p : Rvec3) (corner_x corner_y corner_z seed : ℤ) : ℚ :=
  let grad : Rvec3 := ⟨noise.real corner_x corner_y corner_z (seed + 1),
                       noise.real corner_x corner_y corner_z (seed + 2),
                       noise.real corner_x corner_y corner_z (seed + 3)⟩
  (p - ⟨(corner_x : ℚ), (corner_y : ℚ), (corner_z : ℚ)⟩).dot grad

/-- `mix` from texture.rs. -/
def mix (a b t : ℚ) : ℚ := (b - a) * t + a

/-- `sample_perlin` from texture.rs: gradient noise with smootherstep
trilinear interpolation. -/
def sample_perlin (hit : Hit) (seed : ℤ) : Color :=
  let p := hit.position
  let flx : ℤ := ⌊p.x⌋
  let fly : ℤ := ⌊p.y⌋
  let flz : ℤ := ⌊p.z⌋
  let clx := flx + 1
  let cly := fly + 1
  let clz := flz + 1
  let k1 := grad_dot p flx fly flz seed
  let k2 := grad_dot p clx fly flz seed
  let k3 := grad_dot p flx cly flz seed
  let k4 := grad_dot p clx cly flz seed
  let k5 := grad_dot p flx fly clz seed
  let k6 := grad_dot p clx fly clz seed
  let k7 := grad_dot p flx cly clz seed
  let k8 := grad_dot p clx cly clz seed
  let smo : ℚ → ℚ := fun t => (t * (t * 6 - 15) + 10) * t * t * t
  let tx := smo (p.x - (flx : ℚ))
  let ty := smo (p.y - (fly : ℚ))
  let tz := smo (p.z - (flz : ℚ))
  let k12 := mix k1 k2 tx
  let k34 := mix k3 k4 tx
  let k56 := mix k5 k6 tx
  let k78 := mix k7 k8 tx
  let k1234 := mix k12 k34 ty
  let k5678 := mix k56 k78 ty
  let k12345678 := mix k1234 k5678 tz
  let x := 1/2 * k12345678 + 1/2
  rgb x x x

/-- `Texture::sample` from texture.rs.  The checker indirection recurses
through the texture table, which need not be well-founded (a checker can
name itself), so the recursion carries fuel: `none` models the
nonterminating/stack-overflowing executions (and out-of-range texture ids,
which panic in Rust).  The `rng` argument is passed along exactly as the
Rust `&mut Randomizer` is, and is never consulted. -/
def Texture.sample (fuel : ℕ) (tex : Texture) (incident : Ray) (hit : Hit)
    (sd : SceneData) (rng : Randomizer) : Option Color :=
  match tex with
  | .Missing => some (rgb 0 0 0)
  | .Solid color => some color
  | .Checker odd even =>
    match fuel with
    | 0 => none
    | fuel + 1 =>
      let p := hit.position
      let tid := if (⌊p.x⌋ + ⌊p.y⌋ + ⌊p.z⌋) % 2 = 0 then even else odd
      match sd.texture_table[tid]? with
      | some t => Texture.sample fuel t incident hit sd rng
      | none => none
  | .Noise seed => some (sample_noise hit seed)
  | .Perlin seed => some (sample_perlin hit seed)

/-! ## material.rs -/

/-- `reflect` from utility.rs. -/
def reflect (incident normal : Rvec3) : Rvec3 :=
  incident - (2 * incident.dot normal) • normal

/-- `refract` from utility.rs (`none` = total reflection). -/
def refract (F : MathFns) (incident normal : Rvec3) (eta : ℚ) : Option Rvec3 :=
  let cos_theta := normal.dot incident
  let k := 1 - eta * eta * (1 - cos_theta * cos_theta)
  if k < 0 then none
  else some (eta • incident - (eta * cos_theta + F.sqrt k) • normal)

/-- `UnitSphere` sampling from randomness.rs: rejection loop, modelled with
fuel (`none` = the loop did not accept within `fuel` rounds). -/
def sampleUnitSphere (F : MathFns) : ℕ → Randomizer → Option (Rvec3 × Randomizer)
  | 0, _ => none
  | fuel + 1, rng =>
    let (r₁, rng) := rng.gen
    let (r₂, rng) := rng.gen
    let vx := 2 * r₁ - 1
    let vy := 2 * r₂ - 1
    let s := vx * vx + vy * vy
    if s < 1 then
      let n := 2 * F.sqrt (1 - s)
      some (⟨vx * n, vy * n, 1 - 2 * s⟩, rng)
    else sampleUnitSphere F fuel rng

/-- `UnitBall` sampling from randomness.rs: rejection loop with fuel. -/
def sampleUnitBall : ℕ → Randomizer → Option (Rvec3 × Randomizer)
  | 0, _ => none
  | fuel + 1, rng =>
    let (r₁, rng) := rng.gen
    let (r₂, rng) := rng.gen
    let (r₃, rng) := rng.gen
    let v : Rvec3 := ⟨2 * r₁ - 1, 2 * r₂ - 1, 2 * r₃ - 1⟩
    if v.norm_squared < 1 then some (v, rng)
    else sampleUnitBall fuel rng

/-- `evaluate_lambert` from material.rs. -/
def evaluate_lambert (F : MathFns) (fuel : ℕ) (incident : Ray) (hit : Hit)
    (rng : Randomizer) : Option (Option Ray × Randomizer) :=
  if hit.normal.dot incident.direction > 0 then some (none, rng)
  else
    (sampleUnitSphere F fuel rng).map fun p =>
      (some { direction := (hit.normal + p.1).normalize F
              origin := hit.position
              t_min := RAY_EPSILON
              t_max := ⊤ }, p.2)

/-- `evaluate_metal` from material.rs. -/
def evaluate_metal (F : MathFns) (fuel : ℕ) (incident : Ray) (hit : Hit)
    (rng : Randomizer) (fuzziness : ℚ) : Option (Option Ray × Randomizer) :=
  if hit.normal.dot incident.direction > 0 then some (none, rng)
  else
    (sampleUnitBall fuel rng).map fun p =>
      let reflect_dir := (reflect incident.direction hit.normal + fuzziness • p.1).normalize F
      if hit.normal.dot reflect_dir < 0 then (none, p.2)
      else
        (some { direction := reflect_dir
                origin := hit.position
                t_min := RAY_EPSILON
                t_max := ⊤ }, p.2)

/-- `evaluate_dielectric` from material.rs (Schlick reflectance, stochastic
reflect/refract choice via `Bernoulli(reflectance)`, total-internal-reflection
fallback). -/
def evaluate_dielectric (F : MathFns) (incident : Ray) (hit : Hit)
    (rng : Randomizer) (refraction_index : ℚ) : Option (Option Ray × Randomizer) :=
  let en : ℚ × Rvec3 :=
    if hit.normal.dot incident.direction > 0 then (refraction_index, -hit.normal)
    else (1 / refraction_index, hit.normal)
  let eta := en.1
  let normal := en.2
  let reflectance :=
    let r0 := ((1 - eta) / (1 + eta)) ^ (2 : ℕ)
    r0 + (1 - r0) * (1 + normal.dot incident.direction) ^ (5 : ℕ)
  let (b, rng) := rng.gen
  let bounce_direction :=
    if b < reflectance then reflect incident.direction normal
    else (refract F incident.direction normal eta).getD (reflect incident.direction normal)
  some (some { direction := bounce_direction
               origin := hit.position
               t_min := RAY_EPSILON
               t_max := ⊤ }, rng)

/-- `Scatter::evaluate` from material.rs. -/
def Scatter.evaluate (F : MathFns) (fuel : ℕ) (s : Scatter) (incident : Ray)
    (hit : Hit) (rng : Randomizer) : Option (Option Ray × Randomizer) :=
  match s with
  | .None => some (none, rng)
  | .Lambert => evaluate_lambert F fuel incident hit rng
  | .Metal fuzziness => evaluate_metal F fuel incident hit rng fuzziness
  | .Dielectric refraction_index => evaluate_dielectric F incident hit rng refraction_index

/-- `Emit::evaluate` from material.rs (never consults or advances the rng). -/
def Emit.evaluate (F : MathFns) (e : Emit) (incident : Ray) (hit : Hit)
    (rng : Randomizer) : Color :=
  match e with
  | .None => rgb 0 0 0
  | .Normal => rgb hit.normal.x hit.normal.y hit.normal.z
  | .SkyBackground =>
    let t := 1/2 * (incident.direction.y / F.sqrt incident.direction.norm_squared + 1)
    ((1 - t) • rgb 1 1 1) + t • rgb (1/2) (7/10) 1

/-- `Absorb::evaluate` from material.rs. -/
def Absorb.evaluate (fuel : ℕ) (a : Absorb) (incident : Ray) (hit : Hit)
    (sd : SceneData) (rng : Randomizer) : Option Color :=
  match a with
  | .BlackBody => some (rgb 0 0 0)
  | .WhiteBody => some (rgb 1 1 1)
  | .Albedo color => some color
  | .AlbedoMap tid =>
    match sd.texture_table[tid]? with
    | some t => Texture.sample fuel t incident hit sd rng
    | none => none

/-- `MaterialOutput` from material.rs. -/
structure MaterialOutput where
  scatter : Option Ray
  absorb : Color
  emit : Color

/-- `Material::evaluate` from material.rs: scatter (advancing the rng), then
absorb, then emit. -/
def Material.evaluate (F : MathFns) (fuel : ℕ) (m : Material) (incident : Ray)
    (hit : Hit) (sd : SceneData) (rng : Randomizer) :
    Option (MaterialOutput × Randomizer) := do
  let (scatter, rng) ← Scatter.evaluate F fuel m.scatter incident hit rng
  let absorb ← Absorb.evaluate fuel m.absorb incident hit sd rng
  let emit := Emit.evaluate F m.emit incident hit rng
  pure ({ scatter := scatter, absorb := absorb, emit := emit }, rng)

/-! ## render.rs: the path tracer -/

/-- `PathTraceOutput` from render.rs. -/
structure PathTraceOutput where
  final_color : Color
  normal : Rvec3
  hit : Bool

/-- `trace_path_continue` from render.rs.  Panics (invalid material index)
and sampling-fuel exhaustion are `none`. -/
def trace_path_continue (F : MathFns) (fuel : ℕ) (scene : Hittable) (ray : Ray)
    (depth : ℕ) (sd : SceneData) (rng : Randomizer) (background : Emit) :
    Option Color :=
  match depth with
  | 0 => some (rgb 0 0 0)
  | depth' + 1 =>
    match Hittable.hit F sd scene ray with
    | some (hit, material) =>
      match sd.material_table[material]? with
      | none => none
      | some mat =>
        match Material.evaluate F fuel mat ray hit sd rng with
        | none => none
        | some (mat_out, rng') =>
          match mat_out.scatter with
          | none => some (mat_out.emit + rgb 0 0 0)
          | some scatter =>
            (trace_path_continue F fuel scene scatter depth' sd rng' background).map
              fun c => mat_out.emit + mat_out.absorb.component_mul c
    | none => some (Emit.evaluate F background ray (Hit.at_infinity ray.direction) rng)

/-- `trace_path_first` from render.rs (the stale `rgb(0,0,0)` stored in the
`normal : Rvec3` field of the miss branch is modelled as the zero vector). -/
def trace_path_first (F : MathFns) (fuel : ℕ) (scene : Hittable) (ray : Ray)
    (depth : ℕ) (sd : SceneData) (rng : Randomizer) (background : Emit) :
    Option PathTraceOutput :=
  match Hittable.hit F sd scene ray with
  | some (hit, material) =>
    match sd.material_table[material]? with
    | none => none
    | some mat =>
      match Material.evaluate F fuel mat ray hit sd rng with
      | none => none
      | some (mat_out, rng') =>
        let cont : Option Color :=
          match mat_out.scatter with
          | none => some (rgb 0 0 0)
          | some scatter => trace_path_continue F fuel scene scatter (depth - 1) sd rng' background
        cont.map fun c =>
          let final_color :=
            mat_out.emit +
              (match mat_out.scatter with
               | none => rgb 0 0 0
               | some _ => mat_out.absorb.component_mul c)
          { final_color := final_color, normal := hit.normal, hit := true }
  | none =>
    some { final_color := Emit.evaluate F background ray (Hit.at_infinity ray.direction) rng
           normal := Rvec3.zero
           hit := false }

/-- `trace_path` from render.rs: `assert!(depth >= 1)` (`none` = the assert
panic), then delegate to `trace_path_first`. -/
def trace_path (F : MathFns) (fuel : ℕ) (scene : Hittable) (ray : Ray)
    (depth : ℕ) (sd : SceneData) (rng : Randomizer) (background : Emit) :
    Option PathTraceOutput :=
  if 1 ≤ depth then trace_path_first F fuel scene ray depth sd rng background
  else none

/-! ## Structural facts about `make_bvh` -/

/-- Lengths of the two halves produced by `split`. -/
theorem split_lengths (content : List (ℕ × AABB)) (sort_axis : ℕ) :
    (split content sort_axis).1.length = content.length / 2 ∧
    (split content sort_axis).2.length = content.length - content.length / 2 := by
  constructor
  · simp [split, List.length_take, List.length_mergeSort]
    omega
  · simp [split, List.length_drop, List.length_mergeSort]

/-- `make_bvh` on nonempty content succeeds, appends at least one node to
the table, and returns the index of the last node appended. -/
theorem make_bvh_shape : ∀ (n : ℕ) (content : List (ℕ × AABB)), content.length = n →
    content ≠ [] → ∀ (sort_axis : ℕ) (nodes : List BvhNode),
    ∃ ext, ext ≠ [] ∧
      make_bvh content sort_axis nodes = some ((nodes ++ ext).length - 1, nodes ++ ext) := by
  intro n
  induction n using Nat.strong_induction_on with
  | _ n IH =>
    intro content hlen hne sort_axis nodes
    cases content with
    | nil => exact absurd rfl hne
    | cons p tail =>
      cases tail with
      | nil =>
        obtain ⟨leaf, aabb⟩ := p
        exact ⟨[BvhNode.Leaf aabb leaf], by simp, by simp [make_bvh]⟩
      | cons q rest =>
        subst hlen
        obtain ⟨hsplit1, hsplit2⟩ := split_lengths (p :: q :: rest) sort_axis
        obtain ⟨ext₁, hext₁ne, h₁⟩ := IH (split (p :: q :: rest) sort_axis).1.length
          (by rw [hsplit1]; simp; omega) _ rfl
          (by intro h; rw [h] at hsplit1; simp at hsplit1; omega)
          ((sort_axis + 1) % 3) nodes
        obtain ⟨ext₂, hext₂ne, h₂⟩ := IH (split (p :: q :: rest) sort_axis).2.length
          (by rw [hsplit2]; simp; omega) _ rfl
          (by intro h; rw [h] at hsplit2; simp at hsplit2; omega)
          ((sort_axis + 1) % 3) (nodes ++ ext₁)
        have hext₁pos : 0 < ext₁.length := List.length_pos.mpr hext₁ne
        have hext₂pos : 0 < ext₂.length := List.length_pos.mpr hext₂ne
        have hleft_lt : (nodes ++ ext₁).length - 1 < (nodes ++ ext₁ ++ ext₂).length := by
          simp
          omega
        have hright_lt : (nodes ++ ext₁ ++ ext₂).length - 1 <
            (nodes ++ ext₁ ++ ext₂).length := by
          simp
          omega
        refine ⟨ext₁ ++ ext₂ ++
          [BvhNode.Branch
            ((((nodes ++ ext₁ ++ ext₂).get ⟨(nodes ++ ext₁).length - 1, hleft_lt⟩).bounding_box).union
             (((nodes ++ ext₁ ++ ext₂).get
               ⟨(nodes ++ ext₁ ++ ext₂).length - 1, hright_lt⟩).bounding_box))
            ((nodes ++ ext₁).length - 1) ((nodes ++ ext₁ ++ ext₂).length - 1)], by simp, ?_⟩
        rw [show make_bvh (p :: q :: rest) sort_axis nodes =
          (match make_bvh (split (p :: q :: rest) sort_axis).1 ((sort_axis + 1) % 3) nodes with
            | none => none
            | some (left, nodes₁) =>
              match make_bvh (split (p :: q :: rest) sort_axis).2 ((sort_axis + 1) % 3) nodes₁ with
              | none => none
              | some (right, nodes₂) =>
                match nodes₂[left]?, nodes₂[right]? with
                | some ln, some rn =>
                  some (nodes₂.length,
                    nodes₂ ++ [BvhNode.Branch (ln.bounding_box.union rn.bounding_box) left right])
                | _, _ => none) from by rw [make_bvh]]
        simp only [h₁]
        simp only [h₂]
        simp only [List.getElem?_eq_getElem hleft_lt, List.getElem?_eq_getElem hright_lt]
        simp [List.append_assoc]
        omega

/-! ## C10: `Bvh::new` requires a nonempty primitive list -/

/-- C10: `make_bvh` hits its `unreachable!()` (modelled as `none`) exactly on
empty content: it panics on the empty slice, succeeds (terminates, never
reaching the panic branch) on every nonempty slice, and `Bvh::new` on an
empty hittable vector panics. -/
theorem c10_bvh_new_nonempty :
    (∀ (sort_axis : ℕ) (nodes : List BvhNode), make_bvh [] sort_axis nodes = none) ∧
    (∀ (content : List (ℕ × AABB)) (sort_axis : ℕ) (nodes : List BvhNode),
      content ≠ [] → (make_bvh content sort_axis nodes).isSome) ∧
    (∀ sd : SceneData, Bvh.new sd [] = none) := by
  refine ⟨fun _ _ => by rw [make_bvh.eq_def], ?_, ?_⟩
  · intro content sort_axis nodes hne
    obtain ⟨ext, -, h⟩ := make_bvh_shape content.length content rfl hne sort_axis nodes
    simp [h]
  · intro sd
    have h : make_bvh ([] : List (ℕ × AABB)) 0 [] = none := by rw [make_bvh.eq_def]
    simp [Bvh.new]
    intro a ha
    simp [List.mapM.loop] at ha
    subst ha
    simp [h]

/-- C10 witness: the builder succeeds on a concrete singleton slice. -/
theorem c10_bvh_new_nonempty_witness :
    (make_bvh [(0, AABB.default)] 0 []).isSome = true :=
  c10_bvh_new_nonempty.2.1 [(0, AABB.default)] 0 [] (by simp)

/-! ## C9: the `bounding_box` contract -/

/-- The union-fold of `bounding_box_list` succeeds when every member's
bounding box does. -/
theorem bbListGo_isSome (sd : SceneData) (l : List Hittable)
    (hx : ∀ x ∈ l, (Hittable.bounding_box sd x).isSome) (acc : AABB) :
    (bbListGo sd l acc).isSome := by
  induction l generalizing acc with
  | nil => rw [bbListGo]; rfl
  | cons x rest ih =>
    rw [bbListGo]
    obtain ⟨bb, hbb⟩ := Option.isSome_iff_exists.mp (hx x (by simp))
    rw [hbb]
    exact ih (fun y hy => hx y (by simp [hy])) _

/-- C9 counterexample: the claim says the List variant returns normally, but
a list whose member is a Bvh panics (the member dispatch reaches the
`panic!`), modelled as `none`. -/
theorem c9_counterexample :
    Hittable.bounding_box ⟨[], [], []⟩ (.list [.Bvh [] [] 0]) = none := by
  rw [Hittable.bounding_box]
  rw [bounding_box_list]
  rw [Hittable.bounding_box]

/-- C9 (amended): `bounding_box` on a Bvh variant always panics (`none`);
Sphere always returns normally; Triangle returns normally when its mesh and
vertex indices are valid; List returns normally when every member's
`bounding_box` does (in particular when no member recursively contains a
Bvh and all indices are valid). -/
theorem c9_bounding_box_contract :
    (∀ (sd : SceneData) (leaves : List Hittable) (nodes : List BvhNode) (root : ℕ),
      Hittable.bounding_box sd (.Bvh leaves nodes root) = none) ∧
    (∀ (sd : SceneData) (center : Rvec3) (radius : ℚ) (material : ℕ),
      (Hittable.bounding_box sd (.Sphere center radius material)).isSome) ∧
    (∀ (sd : SceneData) (triangle mesh : ℕ) (m : Mesh) (tri : Vertex × Vertex × Vertex),
      sd.mesh_table[mesh]? = some m → m.get_triangle triangle = some tri →
      (Hittable.bounding_box sd (.Triangle triangle mesh)).isSome) ∧
    (∀ (sd : SceneData) (l : List Hittable),
      (∀ x ∈ l, (Hittable.bounding_box sd x).isSome) →
      (Hittable.bounding_box sd (.list l)).isSome) := by
  refine ⟨fun sd leaves nodes root => by rw [Hittable.bounding_box],
    fun sd center radius material => by rw [Hittable.bounding_box]; rfl,
    ?_, ?_⟩
  · intro sd triangle mesh m tri hm htri
    rw [Hittable.bounding_box]
    simp only [bounding_box_triangle, hm, htri]
    rfl
  · intro sd l hx
    rw [Hittable.bounding_box]
    cases l with
    | nil => rw [bounding_box_list]; rfl
    | cons x rest =>
      rw [bounding_box_list]
      obtain ⟨bb, hbb⟩ := Option.isSome_iff_exists.mp (hx x (by simp))
      rw [hbb]
      exact bbListGo_isSome sd rest (fun y hy => hx y (by simp [hy])) _

/-- Concrete vertices and a one-triangle mesh used by witnesses. -/
def vA : Vertex := ⟨⟨0, 0, 0⟩, ⟨0, 0, 1⟩, ⟨0, 0⟩⟩

/-- Second witness vertex. -/
def vB : Vertex := ⟨⟨1, 0, 0⟩, ⟨0, 0, 1⟩, ⟨1, 0⟩⟩

/-- Third witness vertex. -/
def vC : Vertex := ⟨⟨0, 1, 0⟩, ⟨0, 0, 1⟩, ⟨0, 1⟩⟩

/-- A concrete one-triangle mesh used by witnesses. -/
def mesh₁ : Mesh := ⟨[vA, vB, vC], [0, 1, 2], 7⟩

/-- C9 witness: the amended contract applied at concrete inputs. -/
theorem c9_bounding_box_contract_witness :
    (Hittable.bounding_box ⟨[], [], [mesh₁]⟩ (.Triangle 0 0)).isSome ∧
    (Hittable.bounding_box ⟨[], [], []⟩
      (.list [.Sphere ⟨0, 0, 0⟩ 1 0])).isSome := by
  constructor
  · exact c9_bounding_box_contract.2.2.1 ⟨[], [], [mesh₁]⟩ 0 0 mesh₁ _ rfl rfl
  · exact c9_bounding_box_contract.2.2.2 ⟨[], [], []⟩ _
      (by
        intro x hx
        simp at hx
        subst hx
        exact c9_bounding_box_contract.2.1 _ _ _ _)

/-! ## C7: tile partition completeness -/

/-- Helper: the tile generated for grid cell `(ti, tj)`. -/
def mkTile (full_width full_height tile_width tile_height ti tj : ℕ) : Tile :=
  ⟨(ti * tile_width, tj * tile_height),
   RgbaImage.new (tile_width ⊓ (full_width - ti * tile_width))
                 (tile_height ⊓ (full_height - tj * tile_height))⟩

/-- Helper: pixel `(i, j)` lies in the rectangle of tile `t`. -/
def tileContains (t : Tile) (i j : ℕ) : Prop :=
  t.pixel_offset.1 ≤ i ∧ i < t.pixel_offset.1 + t.pixels.width ∧
  t.pixel_offset.2 ≤ j ∧ j < t.pixel_offset.2 + t.pixels.height

/-- The double loop of `Tile::new` enumerates grid cells row-major. -/
theorem Tile.new_eq_map (W H tw th : ℕ) :
    Tile.new W H tw th =
      (List.range (((H + th - 1) / th) * ((W + tw - 1) / tw))).map
        fun k => mkTile W H tw th (k % ((W + tw - 1) / tw)) (k / ((W + tw - 1) / tw)) := by
  show (List.range ((H + th - 1) / th)).flatMap _ = _
  generalize (H + th - 1) / th = ntj
  generalize hni : (W + tw - 1) / tw = nti
  rcases Nat.eq_zero_or_pos nti with hz | hpos
  · subst hz
    simp
  · induction ntj with
    | zero => simp
    | succ n ih =>
      rw [List.range_succ, List.flatMap_append, ih, Nat.succ_mul, List.range_add,
        List.map_append]
      congr 1
      simp only [List.flatMap_cons, List.flatMap_nil, List.append_nil, List.map_map]
      refine List.map_congr_left fun a ha => ?_
      have ha' : a < nti := List.mem_range.mp ha
      have h₁ : (n * nti + a) % nti = a := by
        rw [Nat.add_comm, Nat.add_mul_mod_self_right, Nat.mod_eq_of_lt ha']
      have h₃ : (n * nti + a) / nti = n := by
        rw [Nat.add_comm, Nat.add_mul_div_right _ _ hpos, Nat.div_eq_of_lt ha']
        omega
      simp [Function.comp, mkTile, h₁, h₃]

/-- C7: for positive tile dimensions, `Tile::new` produces tiles whose
rectangles lie inside the image and which cover every pixel of
`[0,W) × [0,H)` exactly once (unique covering tile index): full coverage,
no overlap, edge tiles clipped. -/
theorem c7_tile_partition (W H tw th : ℕ) (htw : 0 < tw) (hth : 0 < th) :
    (∀ t ∈ Tile.new W H tw th,
      t.pixel_offset.1 + t.pixels.width ≤ W ∧
      t.pixel_offset.2 + t.pixels.height ≤ H) ∧
    (∀ i j, i < W → j < H →
      ∃! k : ℕ, ∃ t, (Tile.new W H tw th)[k]? = some t ∧ tileContains t i j) := by
  set nti := (W + tw - 1) / tw with hnti
  set ntj := (H + th - 1) / th with hntj
  have hWle : W ≤ nti * tw := by
    rw [hnti]
    have h := Nat.div_add_mod (W + tw - 1) tw
    have hr : (W + tw - 1) % tw < tw := Nat.mod_lt _ htw
    have hc : tw * ((W + tw - 1) / tw) = (W + tw - 1) / tw * tw := Nat.mul_comm _ _
    omega
  have hHle : H ≤ ntj * th := by
    rw [hntj]
    have h := Nat.div_add_mod (H + th - 1) th
    have hr : (H + th - 1) % th < th := Nat.mod_lt _ hth
    have hc : th * ((H + th - 1) / th) = (H + th - 1) / th * th := Nat.mul_comm _ _
    omega
  have hub_i : nti * tw ≤ W + tw - 1 := by rw [hnti]; exact Nat.div_mul_le_self _ _
  have hub_j : ntj * th ≤ H + th - 1 := by rw [hntj]; exact Nat.div_mul_le_self _ _
  constructor
  · intro t ht
    rw [Tile.new_eq_map] at ht
    obtain ⟨k, hk, rfl⟩ := List.mem_map.mp ht
    have hkr : k < ntj * nti := List.mem_range.mp hk
    have hmod : k % nti < nti := by
      apply Nat.mod_lt
      rcases Nat.eq_zero_or_pos nti with hz | hpos
      · rw [hz] at hkr; omega
      · exact hpos
    have hdiv : k / nti < ntj := by
      apply Nat.div_lt_iff_lt_mul (by omega) |>.mpr
      omega
    have h1 : k % nti * tw + tw ≤ nti * tw :=
      calc k % nti * tw + tw = (k % nti + 1) * tw := by ring
      _ ≤ nti * tw := Nat.mul_le_mul_right tw (by omega)
    have h2 : k / nti * th + th ≤ ntj * th :=
      calc k / nti * th + th = (k / nti + 1) * th := by ring
      _ ≤ ntj * th := Nat.mul_le_mul_right th (by omega)
    constructor
    · show k % nti * tw + (tw ⊓ (W - k % nti * tw)) ≤ W
      omega
    · show k / nti * th + (th ⊓ (H - k / nti * th)) ≤ H
      omega
  · intro i j hi hj
    have hi' : i / tw < nti := by
      apply Nat.div_lt_iff_lt_mul htw |>.mpr
      omega
    have hj' : j / th < ntj := by
      apply Nat.div_lt_iff_lt_mul hth |>.mpr
      omega
    have hlen : ∀ k, k < ntj * nti →
        (Tile.new W H tw th)[k]? = some (mkTile W H tw th (k % nti) (k / nti)) := by
      intro k hk
      rw [Tile.new_eq_map]
      simp [List.getElem?_range, hk]
    have hcontains : ∀ a b, a * tw ≤ i → i < a * tw + tw → b * th ≤ j → j < b * th + th →
        tileContains (mkTile W H tw th a b) i j := by
      intro a b h1 h2 h3 h4
      refine ⟨h1, ?_, h3, ?_⟩
      · show i < a * tw + (tw ⊓ (W - a * tw))
        omega
      · show j < b * th + (th ⊓ (H - b * th))
        omega
    refine ⟨j / th * nti + i / tw, ⟨mkTile W H tw th (i / tw) (j / th), ?_, ?_⟩, ?_⟩
    · have hk : j / th * nti + i / tw < ntj * nti := by
        calc j / th * nti + i / tw < j / th * nti + nti := by omega
        _ = (j / th + 1) * nti := by ring
        _ ≤ ntj * nti := Nat.mul_le_mul_right nti (by omega)
      rw [hlen _ hk]
      have hmod : (j / th * nti + i / tw) % nti = i / tw := by
        rw [Nat.add_comm, Nat.add_mul_mod_self_right, Nat.mod_eq_of_lt hi']
      have hdiv : (j / th * nti + i / tw) / nti = j / th := by
        rw [Nat.add_comm, Nat.add_mul_div_right _ _ (by omega), Nat.div_eq_of_lt hi']
        omega
      rw [hmod, hdiv]
    · apply hcontains
      · exact Nat.div_mul_le_self i tw
      · have := Nat.lt_mul_div_succ i htw
        have h : tw * (i / tw + 1) = i / tw * tw + tw := by ring
        omega
      · exact Nat.div_mul_le_self j th
      · have := Nat.lt_mul_div_succ j hth
        have h : th * (j / th + 1) = j / th * th + th := by ring
        omega
    · rintro k ⟨t, hk, hc⟩
      have hklt : k < ntj * nti := by
        by_contra hge
        rw [Tile.new_eq_map] at hk
        rw [hnti, hntj] at hge
        rw [List.getElem?_eq_none (by simp; omega)] at hk
        exact Option.noConfusion hk
      rw [hlen _ hklt] at hk
      have ht : t = mkTile W H tw th (k % nti) (k / nti) := by
        injection hk with h
        exact h.symm
      subst ht
      obtain ⟨h1, h2, h3, h4⟩ := hc
      have hAi : k % nti * tw ≤ i ∧ i < k % nti * tw + tw := by
        constructor
        · exact h1
        · have : i < k % nti * tw + (tw ⊓ (W - k % nti * tw)) := h2
          omega
      have hAj : k / nti * th ≤ j ∧ j < k / nti * th + th := by
        constructor
        · exact h3
        · have : j < k / nti * th + (th ⊓ (H - k / nti * th)) := h4
          omega
      have hieq : i / tw = k % nti := by
        rw [Nat.div_eq_of_lt_le hAi.1 (by
          have : (k % nti + 1) * tw = k % nti * tw + tw := by ring
          omega)]
      have hjeq : j / th = k / nti := by
        rw [Nat.div_eq_of_lt_le hAj.1 (by
          have : (k / nti + 1) * th = k / nti * th + th := by ring
          omega)]
      rw [hieq, hjeq]
      have hdm := Nat.div_add_mod k nti
      have hcm : nti * (k / nti) = k / nti * nti := Nat.mul_comm _ _
      omega

/-- C7 witness at a concrete non-multiple configuration (5×3 image, 2×2
tiles). -/
theorem c7_tile_partition_witness :
    (∀ t ∈ Tile.new 5 3 2 2,
      t.pixel_offset.1 + t.pixels.width ≤ 5 ∧
      t.pixel_offset.2 + t.pixels.height ≤ 3) ∧
    (∀ i j, i < 5 → j < 3 →
      ∃! k : ℕ, ∃ t, (Tile.new 5 3 2 2)[k]? = some t ∧ tileContains t i j) :=
  c7_tile_partition 5 3 2 2 (by decide) (by decide)

/-! ## C8: texture evaluation is a pure function of position and seed -/

/-- C8: `Texture::sample` (checker, value noise, Perlin, solid, missing)
never consults the rng or the incident ray: its result depends only on the
texture, the scene tables, and the hit position, so two evaluations at the
same position with the same seed return identical colors regardless of the
generator state — the per-sample pipeline is deterministic given the seed. -/
theorem c8_texture_purity :
    ∀ (fuel : ℕ) (tex : Texture) (incident incident' : Ray) (hit hit' : Hit)
      (sd : SceneData) (rng₁ rng₂ : Randomizer), hit.position = hit'.position →
      Texture.sample fuel tex incident hit sd rng₁ =
        Texture.sample fuel tex incident' hit' sd rng₂ := by
  intro fuel
  induction fuel with
  | zero =>
    intro tex incident incident' hit hit' sd rng₁ rng₂ hpos
    cases tex with
    | Missing => rfl
    | Solid color => rfl
    | Checker odd even => rfl
    | Noise seed => simp only [Texture.sample, sample_noise, hpos]
    | Perlin seed => simp only [Texture.sample, sample_perlin, grad_dot, hpos]
  | succ n ih =>
    intro tex incident incident' hit hit' sd rng₁ rng₂ hpos
    cases tex with
    | Missing => rfl
    | Solid color => rfl
    | Checker odd even =>
      simp only [Texture.sample, hpos]
      cases sd.texture_table[if (⌊hit'.position.x⌋ + ⌊hit'.position.y⌋ + ⌊hit'.position.z⌋) % 2 = 0
          then even else odd]? with
      | none => rfl
      | some t => exact ih t incident incident' hit hit' sd rng₁ rng₂ hpos
    | Noise seed => simp only [Texture.sample, sample_noise, hpos]
    | Perlin seed => simp only [Texture.sample, sample_perlin, grad_dot, hpos]

/-- C8 witness: a Perlin evaluation and a checker evaluation at the same
position agree across different generator states and incident rays. -/
theorem c8_texture_purity_witness :
    Texture.sample 1 (.Perlin 42)
        ⟨⟨0, 0, 0⟩, ⟨0, 0, 1⟩, 0, ⊤⟩ ⟨2, ⟨1/2, 1/3, 1/4⟩, ⟨0, 0, 1⟩, ⟨0, 0⟩⟩
        ⟨[], [], []⟩ ⟨fun _ => 0, 0⟩ =
      Texture.sample 1 (.Perlin 42)
        ⟨⟨5, 5, 5⟩, ⟨1, 0, 0⟩, 0, ⊤⟩ ⟨7, ⟨1/2, 1/3, 1/4⟩, ⟨1, 0, 0⟩, ⟨1, 1⟩⟩
        ⟨[], [], []⟩ ⟨fun _ => 1, 9⟩ :=
  c8_texture_purity 1 (.Perlin 42) _ _ _ _ ⟨[], [], []⟩ _ _ rfl

/-! ## Component-level unfolding lemmas for the vector operations -/

@[simp] theorem Rvec3.add_def (a b : Rvec3) :
    a + b = ⟨a.x + b.x, a.y + b.y, a.z + b.z⟩ := rfl
@[simp] theorem Rvec3.sub_def (a b : Rvec3) :
    a - b = ⟨a.x - b.x, a.y - b.y, a.z - b.z⟩ := rfl
@[simp] theorem Rvec3.neg_def (a : Rvec3) : -a = ⟨-a.x, -a.y, -a.z⟩ := rfl
@[simp] theorem Rvec3.smul_def (k : ℚ) (a : Rvec3) :
    k • a = ⟨k * a.x, k * a.y, k * a.z⟩ := rfl
@[simp] theorem Rvec2.add2_def (a b : Rvec2) : a + b = ⟨a.x + b.x, a.y + b.y⟩ := rfl
@[simp] theorem Rvec2.smul2_def (k : ℚ) (a : Rvec2) : k • a = ⟨k * a.x, k * a.y⟩ := rfl
@[simp] theorem Color.addc_def (u v : Color) :
    u + v = ⟨u.r + v.r, u.g + v.g, u.b + v.b, u.a + v.a⟩ := rfl
@[simp] theorem Color.smulc_def (k : ℚ) (v : Color) :
    k • v = ⟨k * v.r, k * v.g, k * v.b, k * v.a⟩ := rfl

/-! ## C5: sphere intersection -/

/-- C5: `hit_sphere` (i) misses whenever the discriminant is ≤ 0 (tangency
counts as a miss); (ii) for a ray aimed at a unit sphere's center from
distance `D` along the axis, returns exactly `t = D - 1` when
`t_min < D - 1 < t_max`; (iii) for a ray starting strictly inside the sphere
(with `t_min ≥ 0`), the near root is negative, so the far intersection is
the one returned whenever it lies in the interval. -/
theorem c5_hit_sphere :
    (∀ (F : MathFns) (center : Rvec3) (radius : ℚ) (material : ℕ) (ray : Ray),
      (ray.direction.dot (ray.origin - center)) * (ray.direction.dot (ray.origin - center)) -
        ray.direction.norm_squared * ((ray.origin - center).norm_squared - radius * radius) ≤ 0 →
      hit_sphere F center radius material ray = none) ∧
    (∀ (F : MathFns) (material : ℕ) (D t_min : ℚ) (t_max : WithTop ℚ),
      F.sqrt 1 = 1 → t_min < D - 1 → ((D - 1 : ℚ) : WithTop ℚ) < t_max →
      (hit_sphere F ⟨0, 0, 0⟩ 1 material ⟨⟨0, 0, D⟩, ⟨0, 0, -1⟩, t_min, t_max⟩).map
        (fun h => h.1.t) = some (D - 1)) ∧
    (∀ (F : MathFns) (center : Rvec3) (radius : ℚ) (material : ℕ) (ray : Ray)
       (a half_b c s : ℚ),
      a = ray.direction.norm_squared →
      half_b = ray.direction.dot (ray.origin - center) →
      c = (ray.origin - center).norm_squared - radius * radius →
      s = F.sqrt (half_b * half_b - a * c) →
      0 < a → c < 0 → 0 ≤ ray.t_min → 0 ≤ s → s * s = half_b * half_b - a * c →
      ray.t_min ≤ (-half_b + s) / a →
      (((-half_b + s) / a : ℚ) : WithTop ℚ) ≤ ray.t_max →
      (hit_sphere F center radius material ray).map (fun h => h.1.t) =
        some ((-half_b + s) / a)) := by
  refine ⟨?_, ?_, ?_⟩
  · intro F center radius material ray hδ
    simp only [hit_sphere]
    rw [if_pos hδ]
  · intro F material D t_min t_max hs h₁ h₂
    simp only [hit_sphere]
    have e₁ : (⟨0, 0, -1⟩ : Rvec3).dot ((⟨0, 0, D⟩ : Rvec3) - ⟨0, 0, 0⟩) = -D := by
      simp [Rvec3.dot]
    have e₂ : (⟨0, 0, -1⟩ : Rvec3).norm_squared = 1 := by
      norm_num [Rvec3.norm_squared, Rvec3.dot]
    have e₃ : ((⟨0, 0, D⟩ : Rvec3) - ⟨0, 0, 0⟩).norm_squared = D * D := by
      simp [Rvec3.norm_squared, Rvec3.dot]
    simp only [e₁, e₂, e₃]
    have e₄ : -D * -D - 1 * (D * D - 1 * 1) = 1 := by ring
    rw [e₄, hs]
    rw [if_neg (by norm_num)]
    have e₅ : (-(-D) - 1) / 1 = D - 1 := by ring
    rw [e₅]
    rw [if_neg (by push_neg; exact ⟨le_of_lt h₁, le_of_lt h₂⟩)]
    rfl
  · intro F center radius material ray a half_b c s ha hb hc hsdef hapos hcneg htmin hsnn hssq
      hlo hhi
    simp only [hit_sphere]
    rw [← ha, ← hb, ← hc, ← hsdef]
    have hδpos : 0 < half_b * half_b - a * c := by nlinarith
    rw [if_neg (by push_neg; exact hδpos)]
    have hs_gt : half_b < s ∧ -half_b < s := by
      constructor <;> nlinarith
    have ht₁ : (-half_b - s) / a < ray.t_min := by
      apply lt_of_lt_of_le _ htmin
      apply div_neg_of_neg_of_pos _ hapos
      nlinarith
    rw [if_pos (Or.inl ht₁)]
    rw [if_neg (by push_neg; exact ⟨hlo, hhi⟩)]
    rfl

/-- C5 witness: conjunct (i) at a tangent ray, conjunct (ii) at `D = 3`,
conjunct (iii) at a ray from the center of a unit sphere. -/
theorem c5_hit_sphere_witness :
    (hit_sphere defaultFns ⟨0, 0, 0⟩ 1 0 ⟨⟨1, 0, -5⟩, ⟨0, 0, 1⟩, 0, ⊤⟩ = none) ∧
    ((hit_sphere defaultFns ⟨0, 0, 0⟩ 1 0 ⟨⟨0, 0, 3⟩, ⟨0, 0, -1⟩, 0, (100 : ℚ)⟩).map
      (fun h => h.1.t) = some 2) ∧
    ((hit_sphere defaultFns ⟨0, 0, 0⟩ 1 0 ⟨⟨0, 0, 0⟩, ⟨0, 0, 1⟩, 0, (100 : ℚ)⟩).map
      (fun h => h.1.t) = some 1) := by
  refine ⟨?_, ?_, ?_⟩
  · exact c5_hit_sphere.1 defaultFns ⟨0, 0, 0⟩ 1 0 _
      (by norm_num [Rvec3.dot, Rvec3.norm_squared])
  · have h := c5_hit_sphere.2.1 defaultFns 0 3 0 ((100 : ℚ) : WithTop ℚ)
      (by norm_num [defaultFns, ratSqrt, Rat.num_one, Rat.den_one, Nat.sqrt_one])
      (by norm_num) (WithTop.coe_lt_coe.mpr (by norm_num))
    rw [h]
    norm_num
  · have h := c5_hit_sphere.2.2 defaultFns ⟨0, 0, 0⟩ 1 0
      ⟨⟨0, 0, 0⟩, ⟨0, 0, 1⟩, 0, ((100 : ℚ) : WithTop ℚ)⟩ 1 0 (-1) 1
      (by norm_num [Rvec3.norm_squared, Rvec3.dot])
      (by norm_num [Rvec3.dot])
      (by norm_num [Rvec3.norm_squared, Rvec3.dot])
      (by norm_num [defaultFns, ratSqrt, Rat.num_one, Rat.den_one, Nat.sqrt_one])
      (by norm_num) (by norm_num) (by norm_num) (by norm_num) (by norm_num)
      (by norm_num) (WithTop.coe_le_coe.mpr (by norm_num))
    rw [h]
    norm_num

/-! ## C6: triangle intersection -/

/-- Helper: the Cramer determinant computed by `hit_triangle`. -/
def triDet (v₀ v₁ v₂ : Vertex) (d : Rvec3) : ℚ :=
  let a := v₀.position
  let b := v₁.position
  let c := v₂.position
  let ba := a - b
  let ca := a - c
  ba.x * ca.y * d.z + ba.y * ca.z * d.x + ba.z * ca.x * d.y
    - ba.x * ca.z * d.y - ba.y * ca.x * d.z - ba.z * ca.y * d.x

/-- C6: `hit_triangle` (i) misses whenever `|det| < SMOL` (≈1e-9);
(ii) in particular a ray whose direction lies in the triangle's plane
(`d = α(a-b) + β(a-c)`, determinant exactly 0) never reports a hit;
(iii) every hit it returns carries barycentric weights `u, v, w = 1-u-v`,
each in `[0,1]`, summing exactly to 1, with `t ∈ [t_min, t_max]` and the
normal and UV interpolated from the three vertices by those weights. -/
theorem c6_hit_triangle :
    (∀ (triangle mesh : ℕ) (ray : Ray) (sd : SceneData) (m : Mesh) (v₀ v₁ v₂ : Vertex),
      sd.mesh_table[mesh]? = some m → m.get_triangle triangle = some (v₀, v₁, v₂) →
      |triDet v₀ v₁ v₂ ray.direction| < SMOL →
      hit_triangle triangle mesh ray sd = none) ∧
    (∀ (triangle mesh : ℕ) (ray : Ray) (sd : SceneData) (m : Mesh) (v₀ v₁ v₂ : Vertex)
       (α β : ℚ),
      sd.mesh_table[mesh]? = some m → m.get_triangle triangle = some (v₀, v₁, v₂) →
      ray.direction = α • (v₀.position - v₁.position) + β • (v₀.position - v₂.position) →
      hit_triangle triangle mesh ray sd = none) ∧
    (∀ (triangle mesh : ℕ) (ray : Ray) (sd : SceneData) (m : Mesh) (v₀ v₁ v₂ : Vertex)
       (h : Hit) (mid : ℕ),
      sd.mesh_table[mesh]? = some m → m.get_triangle triangle = some (v₀, v₁, v₂) →
      hit_triangle triangle mesh ray sd = some (h, mid) →
      mid = m.material ∧ ∃ u v w : ℚ,
        0 ≤ u ∧ u ≤ 1 ∧ 0 ≤ v ∧ v ≤ 1 ∧ 0 ≤ w ∧ w ≤ 1 ∧ u + v + w = 1 ∧
        ray.t_min ≤ h.t ∧ (h.t : WithTop ℚ) ≤ ray.t_max ∧
        h.normal = w • v₀.normal + u • v₁.normal + v • v₂.normal ∧
        h.uv = w • v₀.uv + u • v₁.uv + v • v₂.uv) := by
  have hdet_small : ∀ (triangle mesh : ℕ) (ray : Ray) (sd : SceneData) (m : Mesh)
      (v₀ v₁ v₂ : Vertex),
      sd.mesh_table[mesh]? = some m → m.get_triangle triangle = some (v₀, v₁, v₂) →
      |triDet v₀ v₁ v₂ ray.direction| < SMOL →
      hit_triangle triangle mesh ray sd = none := by
    intro triangle mesh ray sd m v₀ v₁ v₂ hm htri hdet
    simp only [hit_triangle, hm, htri]
    rw [if_pos]
    simpa [triDet] using hdet
  refine ⟨hdet_small, ?_, ?_⟩
  · intro triangle mesh ray sd m v₀ v₁ v₂ α β hm htri hdir
    apply hdet_small triangle mesh ray sd m v₀ v₁ v₂ hm htri
    have hx : ray.direction.x = α * (v₀.position.x - v₁.position.x) +
        β * (v₀.position.x - v₂.position.x) := by rw [hdir]; simp
    have hy : ray.direction.y = α * (v₀.position.y - v₁.position.y) +
        β * (v₀.position.y - v₂.position.y) := by rw [hdir]; simp
    have hz : ray.direction.z = α * (v₀.position.z - v₁.position.z) +
        β * (v₀.position.z - v₂.position.z) := by rw [hdir]; simp
    have hzero : triDet v₀ v₁ v₂ ray.direction = 0 := by
      simp only [triDet, Rvec3.sub_def]
      rw [hx, hy, hz]
      ring
    rw [hzero]
    norm_num [SMOL]
  · intro triangle mesh ray sd m v₀ v₁ v₂ h mid hm htri heq
    simp only [hit_triangle, hm, htri] at heq
    split at heq
    · exact absurd heq (by simp)
    · split at heq
      · exact absurd heq (by simp)
      · rename_i hguard
        push_neg at hguard
        obtain ⟨ht₁, ht₂, hu, hv, hw⟩ := hguard
        have hp := Option.some.inj heq
        rw [Prod.ext_iff] at hp
        obtain ⟨hh, hmid⟩ := hp
        subst hh
        subst hmid
        exact ⟨rfl, _, _, _, hu, by linarith, hv, by linarith, hw, by linarith,
          by ring, ht₁, ht₂, rfl, rfl⟩

/-- The hit record returned by the concrete triangle witness ray. -/
def hitA : Hit := ⟨1, ⟨0, 0, 0⟩, ⟨0, 0, 1⟩, ⟨0, 0⟩⟩

/-- The concrete triangle witness ray: straight down onto vertex `vA`. -/
def rayA : Ray := ⟨⟨0, 0, 1⟩, ⟨0, 0, -1⟩, 0, ⊤⟩

/-- C6 witness: the in-plane-direction conjunct at a concrete parallel ray,
and the hit-validity conjunct at a concrete hit on vertex `vA`. -/
theorem c6_hit_triangle_witness :
    (hit_triangle 0 0 ⟨⟨5, 5, 0⟩, ⟨1, 1, 0⟩, 0, ⊤⟩ ⟨[], [], [mesh₁]⟩ = none) ∧
    ((7 : ℕ) = mesh₁.material ∧ ∃ u v w : ℚ,
      0 ≤ u ∧ u ≤ 1 ∧ 0 ≤ v ∧ v ≤ 1 ∧ 0 ≤ w ∧ w ≤ 1 ∧ u + v + w = 1 ∧
      rayA.t_min ≤ hitA.t ∧ (hitA.t : WithTop ℚ) ≤ rayA.t_max ∧
      hitA.normal = w • vA.normal + u • vB.normal + v • vC.normal ∧
      hitA.uv = w • vA.uv + u • vB.uv + v • vC.uv) := by
  constructor
  · exact c6_hit_triangle.2.1 0 0 ⟨⟨5, 5, 0⟩, ⟨1, 1, 0⟩, 0, ⊤⟩ ⟨[], [], [mesh₁]⟩
      mesh₁ vA vB vC (-1) (-1) rfl rfl
      (by norm_num [vA, vB, vC])
  · exact c6_hit_triangle.2.2 0 0 rayA ⟨[], [], [mesh₁]⟩ mesh₁ vA vB vC hitA 7 rfl rfl
      (by norm_num [hit_triangle, Mesh.get_triangle, mesh₁, vA, vB, vC, SMOL, rayA,
        hitA, Ray.at'])

/-! ## C2: `hit_list` shrinking and tie behavior -/

/-- A concrete sphere hit shared by the C2 development: the axis ray from
the origin hits the unit sphere at `(0,0,-2)` at exactly `t = 1`, for any
`t_max ≥ 1`. -/
theorem sphere_tie_hit (mat : ℕ) (M : WithTop ℚ) (hM : ((1 : ℚ) : WithTop ℚ) ≤ M) :
    hit_sphere defaultFns ⟨0, 0, -2⟩ 1 mat ⟨⟨0, 0, 0⟩, ⟨0, 0, -1⟩, 0, M⟩ =
      some (⟨1, ⟨0, 0, -1⟩, ⟨0, 0, 1⟩, ⟨1/2, 1/2⟩⟩, mat) := by
  have hsq : defaultFns.sqrt 1 = 1 := by
    norm_num [defaultFns, ratSqrt, Rat.num_one, Rat.den_one, Nat.sqrt_one]
  simp only [hit_sphere, Rvec3.sub_def, Rvec3.dot, Rvec3.norm_squared]
  norm_num [hsq]
  norm_cast at hM
  rw [if_neg (not_lt.mpr hM)]
  norm_num [Ray.at', Rvec3.normalize, Rvec3.norm_squared, Rvec3.dot, TAU, PI, hsq, defaultFns,
    ratSqrt, Rat.num_one, Rat.den_one, Nat.sqrt_one]

/-- C2 counterexample: two identical spheres intersected at the same `t = 1`;
the list aggregate returns the hit of the SECOND member (material 1), not
the earliest-found one (material 0): acceptance against the shrunk `t_max`
is non-strict (`t > t_max` rejects, so `t = t_max` is accepted and
replaces). -/
theorem c2_counterexample :
    ((hit_list defaultFns ⟨[], [], []⟩
        [.Sphere ⟨0, 0, -2⟩ 1 0, .Sphere ⟨0, 0, -2⟩ 1 1]
        ⟨⟨0, 0, 0⟩, ⟨0, 0, -1⟩, 0, ((100 : ℚ) : WithTop ℚ)⟩).map (fun r => r.2) =
      some 1) ∧
    ((Hittable.hit defaultFns ⟨[], [], []⟩ (.Sphere ⟨0, 0, -2⟩ 1 0)
        ⟨⟨0, 0, 0⟩, ⟨0, 0, -1⟩, 0, ((100 : ℚ) : WithTop ℚ)⟩).map (fun r => (r.1.t, r.2)) =
      some (1, 0)) := by
  have hA := sphere_tie_hit 0 (100 : WithTop ℚ) (by norm_num)
  have hB := sphere_tie_hit 1 (1 : WithTop ℚ) (by norm_num)
  constructor
  · simp [hit_list, hitListGo, Hittable.hit, hA, hB]
  · simp [Hittable.hit, hA]

/-- C2 (amended): `hit_list` tests each subsequent member against `t_max`
shrunk to the best hit's `t`, and improvement is non-strict: whatever the
second member returns under the shrunk interval replaces the current best —
in particular, on a tie (equal `t`) the LATEST-found hit wins, not the
earliest. -/
theorem c2_hit_list_shrink_tie :
    ∀ (F : MathFns) (sd : SceneData) (x y : Hittable) (ray : Ray) (r₁ r₂ : Hit × ℕ),
      Hittable.hit F sd x ray = some r₁ →
      Hittable.hit F sd y { ray with t_max := ↑r₁.1.t } = some r₂ →
      hit_list F sd [x, y] ray = some r₂ := by
  intro F sd x y ray r₁ r₂ h₁ h₂
  simp [hit_list, hitListGo, h₁, h₂]

/-- C2 witness: the amended tie rule applied to the two concrete identical
spheres — the result is the second sphere's hit at the same `t`. -/
theorem c2_hit_list_shrink_tie_witness :
    hit_list defaultFns ⟨[], [], []⟩
      [.Sphere ⟨0, 0, -2⟩ 1 0, .Sphere ⟨0, 0, -2⟩ 1 1]
      ⟨⟨0, 0, 0⟩, ⟨0, 0, -1⟩, 0, ((100 : ℚ) : WithTop ℚ)⟩ =
      some (⟨1, ⟨0, 0, -1⟩, ⟨0, 0, 1⟩, ⟨1/2, 1/2⟩⟩, 1) := by
  apply c2_hit_list_shrink_tie defaultFns ⟨[], [], []⟩ _ _ _
    (⟨1, ⟨0, 0, -1⟩, ⟨0, 0, 1⟩, ⟨1/2, 1/2⟩⟩, 0) _
  · rw [Hittable.hit]
    exact sphere_tie_hit 0 ((100 : ℚ) : WithTop ℚ)
      (by exact_mod_cast (by norm_num : (1 : ℚ) ≤ 100))
  · rw [Hittable.hit]
    exact sphere_tie_hit 1 ((1 : ℚ) : WithTop ℚ) (le_refl _)

/-! ## C3: the path tracer's depth-0 and combination structure -/

/-- C3 counterexample: the public entry point `trace_path` called with
`depth == 0` does not return black — it hits `assert!(depth >= 1)` and
panics (modelled `none`). -/
theorem c3_counterexample :
    trace_path defaultFns 0 (.list []) ⟨⟨0, 0, 0⟩, ⟨0, 0, -1⟩, 0, ⊤⟩ 0
      ⟨[], [], []⟩ ⟨fun _ => 0, 0⟩ .None = none := by
  rw [trace_path]
  norm_num

/-- C3 (amended): `trace_path` asserts `depth ≥ 1` (depth 0 panics); the
recursive estimator `trace_path_continue` returns black at depth 0; when the
ray hits a primitive, the color is the material's emission plus — when
scatter produced a ray — the absorption color componentwise-multiplied by
the recursive trace at depth−1, and emission plus the black constant
`rgb(0,0,0)` (whose alpha is 1) when scatter is none; when the ray misses,
the background emission is returned. -/
theorem c3_trace_path_structure :
    (∀ (F : MathFns) (fuel : ℕ) (scene : Hittable) (ray : Ray) (sd : SceneData)
       (rng : Randomizer) (background : Emit),
      trace_path F fuel scene ray 0 sd rng background = none) ∧
    (∀ (F : MathFns) (fuel : ℕ) (scene : Hittable) (ray : Ray) (sd : SceneData)
       (rng : Randomizer) (background : Emit),
      trace_path_continue F fuel scene ray 0 sd rng background = some (rgb 0 0 0)) ∧
    (∀ (F : MathFns) (fuel : ℕ) (scene : Hittable) (ray : Ray) (depth' : ℕ)
       (sd : SceneData) (rng rng' : Randomizer) (background : Emit)
       (hit : Hit) (material : ℕ) (mat : Material) (mo : MaterialOutput),
      Hittable.hit F sd scene ray = some (hit, material) →
      sd.material_table[material]? = some mat →
      Material.evaluate F fuel mat ray hit sd rng = some (mo, rng') →
      (mo.scatter = none →
        trace_path_continue F fuel scene ray (depth' + 1) sd rng background =
          some (mo.emit + rgb 0 0 0)) ∧
      (∀ scatter c, mo.scatter = some scatter →
        trace_path_continue F fuel scene scatter depth' sd rng' background = some c →
        trace_path_continue F fuel scene ray (depth' + 1) sd rng background =
          some (mo.emit + mo.absorb.component_mul c))) ∧
    (∀ (F : MathFns) (fuel : ℕ) (scene : Hittable) (ray : Ray) (depth' : ℕ)
       (sd : SceneData) (rng : Randomizer) (background : Emit),
      Hittable.hit F sd scene ray = none →
      trace_path_continue F fuel scene ray (depth' + 1) sd rng background =
        some (Emit.evaluate F background ray (Hit.at_infinity ray.direction) rng)) := by
  refine ⟨?_, ?_, ?_, ?_⟩
  · intro F fuel scene ray sd rng background
    rw [trace_path]
    norm_num
  · intro F fuel scene ray sd rng background
    rfl
  · intro F fuel scene ray depth' sd rng rng' background hit material mat mo hhit hmat heval
    constructor
    · intro hnone
      show trace_path_continue F fuel scene ray (depth' + 1) sd rng background = _
      rw [trace_path_continue]
      rw [hhit]
      simp only [hmat, heval, hnone]
    · intro scatter c hsc hrec
      rw [trace_path_continue]
      rw [hhit]
      simp only [hmat, heval, hsc, hrec]
      rfl
  · intro F fuel scene ray depth' sd rng background hmiss
    rw [trace_path_continue]
    rw [hmiss]

/-- C3 witness: the amended structure applied to a concrete one-sphere
scene with a non-scattering red material — the returned color is the
emission (black) plus the black constant. -/
theorem c3_trace_path_structure_witness :
    trace_path_continue defaultFns 0 (.Sphere ⟨0, 0, -2⟩ 1 0)
      ⟨⟨0, 0, 0⟩, ⟨0, 0, -1⟩, 0, (100 : WithTop ℚ)⟩ 1
      ⟨[⟨.None, .Albedo (rgb 1 0 0), .None⟩], [], []⟩ ⟨fun _ => 0, 0⟩ .None =
      some (rgb 0 0 0 + rgb 0 0 0) := by
  have hhit : Hittable.hit defaultFns ⟨[⟨.None, .Albedo (rgb 1 0 0), .None⟩], [], []⟩
      (.Sphere ⟨0, 0, -2⟩ 1 0) ⟨⟨0, 0, 0⟩, ⟨0, 0, -1⟩, 0, (100 : WithTop ℚ)⟩ =
      some (⟨1, ⟨0, 0, -1⟩, ⟨0, 0, 1⟩, ⟨1/2, 1/2⟩⟩, 0) := by
    rw [Hittable.hit]
    exact sphere_tie_hit 0 (100 : WithTop ℚ) (by norm_num)
  exact (c3_trace_path_structure.2.2.1 defaultFns 0 _ _ 0 _ ⟨fun _ => 0, 0⟩ ⟨fun _ => 0, 0⟩
    .None _ 0 ⟨.None, .Albedo (rgb 1 0 0), .None⟩ ⟨none, rgb 1 0 0, rgb 0 0 0⟩
    hhit rfl rfl).1 rfl

/-! ## C1 development, part 1: the keep-the-closest combinator

`hit_list` and the BVH branch combination both implement "keep the result
with the smaller `t`, the later one on ties".  `choose`/`listBest` is that
combinator in explicit form; `hit_list` and `hitNode` are proved equal to
`listBest` over their members' candidate hits. -/

/-- Keep the better of a current candidate and a later result: the later
wins whenever its `t` is ≤ (non-strict — ties go to the later). -/
def choose (c r : Option (Hit × ℕ)) : Option (Hit × ℕ) :=
  match c, r with
  | none, r => r
  | some c₀, none => some c₀
  | some c₀, some r₀ => if r₀.1.t ≤ c₀.1.t then some r₀ else some c₀

/-- The `choose`-fold over a candidate list (later elements win ties). -/
def listBest : List (Option (Hit × ℕ)) → Option (Hit × ℕ)
  | [] => none
  | c :: rest => choose c (listBest rest)

theorem choose_none_right (c : Option (Hit × ℕ)) : choose c none = c := by
  cases c <;> rfl

theorem choose_assoc (a b c : Option (Hit × ℕ)) :
    choose (choose a b) c = choose a (choose b c) := by
  cases a with
  | none => rfl
  | some a₀ =>
    cases b with
    | none => cases c <;> rfl
    | some b₀ =>
      cases c with
      | none => rw [choose_none_right, choose_none_right]
      | some c₀ =>
        by_cases h₁ : b₀.1.t ≤ a₀.1.t <;> by_cases h₂ : c₀.1.t ≤ b₀.1.t
        · simp only [choose, if_pos h₁, if_pos h₂, if_pos (le_trans h₂ h₁)]
        · simp only [choose, if_pos h₁, if_neg h₂]
        · simp only [choose, if_neg h₁, if_pos h₂]
        · have h₃ : ¬ c₀.1.t ≤ a₀.1.t := fun hc => h₂ (le_trans hc (le_of_lt (not_le.mp h₁)))
          simp only [choose, if_neg h₁, if_neg h₂, if_neg h₃]

theorem listBest_append (l₁ l₂ : List (Option (Hit × ℕ))) :
    listBest (l₁ ++ l₂) = choose (listBest l₁) (listBest l₂) := by
  induction l₁ with
  | nil => rfl
  | cons c rest ih =>
    show choose c (listBest (rest ++ l₂)) = _
    rw [ih, ← choose_assoc]
    rfl

theorem listBest_eq_none_iff (cs : List (Option (Hit × ℕ))) :
    listBest cs = none ↔ ∀ c ∈ cs, c = none := by
  induction cs with
  | nil => simp [listBest]
  | cons c rest ih =>
    simp only [listBest, List.mem_cons]
    constructor
    · intro h
      cases c with
      | none => exact fun x hx => hx.elim (fun he => he ▸ rfl) (ih.mp (by simpa [choose] using h) x)
      | some c₀ =>
        exfalso
        cases hr : listBest rest <;> simp [choose, hr] at h
        split at h <;> simp at h
    · intro h
      have hc : c = none := h c (Or.inl rfl)
      have hr : listBest rest = none := ih.mpr fun x hx => h x (Or.inr hx)
      rw [hc, hr]
      rfl

/-- Any property holding of every `some` member of the candidate list holds
of the `listBest` result. -/
theorem listBest_prop (P : Hit × ℕ → Prop) (cs : List (Option (Hit × ℕ)))
    (h : ∀ c ∈ cs, ∀ r, c = some r → P r) :
    ∀ r, listBest cs = some r → P r := by
  induction cs with
  | nil => intro r hr; exact absurd hr (by simp [listBest])
  | cons c rest ih =>
    intro r hr
    simp only [listBest] at hr
    cases hc : c with
    | none =>
      rw [hc] at hr
      exact ih (fun x hx => h x (List.mem_cons_of_mem _ hx)) r hr
    | some c₀ =>
      rw [hc] at hr
      cases hrest : listBest rest with
      | none =>
        rw [hrest] at hr
        simp only [choose] at hr
        exact h c (List.mem_cons_self _ _) r (by rw [hc, hr])
      | some r₀ =>
        rw [hrest] at hr
        simp only [choose] at hr
        split at hr
        · exact ih (fun x hx => h x (List.mem_cons_of_mem _ hx)) r (hrest.trans hr)
        · exact h c (List.mem_cons_self _ _) r (hc.trans hr)

/-! ## C1 development, part 2: the `t` projection of `listBest` is a
permutation-invariant minimum -/

/-- The intersection parameter of an optional hit. -/
def tOf (o : Option (Hit × ℕ)) : Option ℚ := o.map fun r => r.1.t

/-- Minimum of optional values (`none` = no candidate). -/
def omin : Option ℚ → Option ℚ → Option ℚ
  | none, b => b
  | some a, none => some a
  | some a, some b => some (a ⊓ b)

theorem omin_comm (a b : Option ℚ) : omin a b = omin b a := by
  cases a <;> cases b <;> simp [omin, min_comm]

theorem omin_assoc (a b c : Option ℚ) : omin (omin a b) c = omin a (omin b c) := by
  cases a <;> cases b <;> cases c <;> simp [omin, min_assoc]

theorem tOf_choose (c r : Option (Hit × ℕ)) : tOf (choose c r) = omin (tOf c) (tOf r) := by
  cases c with
  | none => cases r <;> rfl
  | some c₀ =>
    cases r with
    | none => rfl
    | some r₀ =>
      simp only [choose, tOf, omin, Option.map_some']
      split
      · rename_i h
        simp [min_eq_right h]
      · rename_i h
        simp [min_eq_left (le_of_lt (not_le.mp h))]

/-- The minimum `t` over a candidate list. -/
def listMinT (cs : List (Option (Hit × ℕ))) : Option ℚ :=
  cs.foldr (fun c acc => omin (tOf c) acc) none

theorem tOf_listBest (cs : List (Option (Hit × ℕ))) : tOf (listBest cs) = listMinT cs := by
  induction cs with
  | nil => rfl
  | cons c rest ih =>
    simp only [listBest, listMinT, List.foldr_cons, tOf_choose]
    rw [ih]
    rfl

theorem listMinT_perm {cs cs' : List (Option (Hit × ℕ))} (h : cs.Perm cs') :
    listMinT cs = listMinT cs' :=
  List.Perm.foldr_eq' h
    (fun x _ y _ acc => by
      show omin (tOf y) (omin (tOf x) acc) = omin (tOf x) (omin (tOf y) acc)
      rw [← omin_assoc, omin_comm (tOf y) (tOf x), omin_assoc]) none

/-! ## C1 development, part 3: interval behavior of the primitive hits

Traversal only ever mutates a ray by shrinking `t_max`; `HitGood` captures
how a hittable's result varies along that family: hits stay inside the
interval, and shrinking `t_max` preserves the result when its `t` still
fits and turns it into a miss otherwise. -/

/-- `ray` with `t_max` replaced — the only mutation traversal performs. -/
def shrunk (ray : Ray) (M : WithTop ℚ) : Ray := { ray with t_max := M }

theorem shrunk_self (ray : Ray) : shrunk ray ray.t_max = ray := rfl

theorem shrunk_shrunk (ray : Ray) (M M' : WithTop ℚ) :
    shrunk (shrunk ray M) M' = shrunk ray M' := rfl

/-- Hits land inside the interval, and the result is stable under shrinking
`t_max` (kept exactly when its `t` still fits, dropped otherwise). -/
def HitGood (F : MathFns) (sd : SceneData) (ray : Ray) (h : Hittable) : Prop :=
  (∀ M r, Hittable.hit F sd h (shrunk ray M) = some r →
      ray.t_min ≤ r.1.t ∧ (r.1.t : WithTop ℚ) ≤ M) ∧
  (∀ M M', M' ≤ M →
      Hittable.hit F sd h (shrunk ray M') =
        match Hittable.hit F sd h (shrunk ray M) with
        | some r => if (r.1.t : WithTop ℚ) ≤ M' then some r else none
        | none => none)

theorem hit_sphere_bounds (F : MathFns) (center : Rvec3) (radius : ℚ) (material : ℕ)
    (ray : Ray) (r : Hit × ℕ) (hr : hit_sphere F center radius material ray = some r) :
    ray.t_min ≤ r.1.t ∧ (r.1.t : WithTop ℚ) ≤ ray.t_max := by
  simp only [hit_sphere] at hr
  split at hr
  · exact absurd hr (by simp)
  · split at hr
    · split at hr
      · exact absurd hr (by simp)
      · rename_i hc₂
        push_neg at hc₂
        simp only [Option.map_some'] at hr
        have hre := Option.some.inj hr
        subst hre
        exact ⟨hc₂.1, hc₂.2⟩
    · rename_i hc₁
      push_neg at hc₁
      simp only [Option.map_some'] at hr
      have hre := Option.some.inj hr
      subst hre
      exact ⟨hc₁.1, hc₁.2⟩

theorem hit_sphere_stable (F : MathFns) (center : Rvec3) (radius : ℚ) (material : ℕ)
    (ray : Ray) (M' : WithTop ℚ)
    (ha : 0 < ray.direction.norm_squared)
    (hsq : ∀ x : ℚ, 0 < x → 0 ≤ F.sqrt x)
    (hM' : M' ≤ ray.t_max) :
    hit_sphere F center radius material (shrunk ray M') =
      match hit_sphere F center radius material ray with
      | some r => if (r.1.t : WithTop ℚ) ≤ M' then some r else none
      | none => none := by
  have hdir : (shrunk ray M').direction = ray.direction := rfl
  have horig : (shrunk ray M').origin = ray.origin := rfl
  have htmin : (shrunk ray M').t_min = ray.t_min := rfl
  have htmax : (shrunk ray M').t_max = M' := rfl
  have hat : ∀ t, (shrunk ray M').at' t = ray.at' t := fun _ => rfl
  simp only [hit_sphere, hdir, horig, htmin, htmax, hat]
  by_cases hδ : ray.direction.dot (ray.origin - center) * ray.direction.dot (ray.origin - center) -
      ray.direction.norm_squared *
        ((ray.origin - center).norm_squared - radius * radius) ≤ 0
  · rw [if_pos hδ, if_pos hδ]
  · rw [if_neg hδ, if_neg hδ]
    push_neg at hδ
    set a := ray.direction.norm_squared with ha_def
    set half_b := ray.direction.dot (ray.origin - center) with hb_def
    set c := (ray.origin - center).norm_squared - radius * radius with hc_def
    set s := F.sqrt (half_b * half_b - a * c) with hs_def
    have hs : 0 ≤ s := hsq _ hδ
    set t₁ := (-half_b - s) / a with ht₁_def
    set t₂ := (-half_b + s) / a with ht₂_def
    have ht₁₂ : t₁ ≤ t₂ := by
      rw [ht₁_def, ht₂_def]
      exact (div_le_div_right ha).mpr (by linarith)
    have ht₁₂' : (t₁ : WithTop ℚ) ≤ (t₂ : WithTop ℚ) := WithTop.coe_le_coe.mpr ht₁₂
    by_cases h₁ : t₁ < ray.t_min ∨ (t₁ : WithTop ℚ) > ray.t_max
    · rw [if_pos h₁]
      by_cases h₂ : t₂ < ray.t_min ∨ (t₂ : WithTop ℚ) > ray.t_max
      · rw [if_pos h₂]
        have h₁' : t₁ < ray.t_min ∨ (t₁ : WithTop ℚ) > M' := by
          rcases h₁ with h | h
          · exact Or.inl h
          · exact Or.inr (lt_of_le_of_lt hM' h)
        have h₂' : t₂ < ray.t_min ∨ (t₂ : WithTop ℚ) > M' := by
          rcases h₂ with h | h
          · exact Or.inl h
          · exact Or.inr (lt_of_le_of_lt hM' h)
        rw [if_pos h₁', if_pos h₂']
        rfl
      · rw [if_neg h₂]
        push_neg at h₂
        have ht₁lt : t₁ < ray.t_min := by
          rcases h₁ with h | h
          · exact h
          · exact absurd (le_trans ht₁₂' h₂.2) (not_le.mpr h)
        rw [if_pos (Or.inl ht₁lt)]
        by_cases hM : (t₂ : WithTop ℚ) ≤ M'
        · rw [if_neg (by push_neg; exact ⟨h₂.1, hM⟩)]
          simp only [Option.map_some']
          rw [if_pos hM]
        · rw [if_pos (Or.inr (not_le.mp hM))]
          simp only [Option.map_some']
          rw [if_neg hM]
          rfl
    · rw [if_neg h₁]
      push_neg at h₁
      by_cases hM : (t₁ : WithTop ℚ) ≤ M'
      · rw [if_neg (by push_neg; exact ⟨h₁.1, hM⟩)]
        simp only [Option.map_some']
        rw [if_pos hM]
      · rw [if_pos (Or.inr (not_le.mp hM))]
        rw [if_pos (Or.inr (lt_of_lt_of_le (not_le.mp hM) ht₁₂'))]
        simp only [Option.map_some']
        rw [if_neg hM]
        rfl

theorem hit_triangle_bounds (triangle mesh : ℕ) (ray : Ray) (sd : SceneData)
    (r : Hit × ℕ) (hr : hit_triangle triangle mesh ray sd = some r) :
    ray.t_min ≤ r.1.t ∧ (r.1.t : WithTop ℚ) ≤ ray.t_max := by
  simp only [hit_triangle] at hr
  split at hr
  · exact absurd hr (by simp)
  · split at hr
    · exact absurd hr (by simp)
    · split at hr
      · exact absurd hr (by simp)
      · split at hr
        · exact absurd hr (by simp)
        · rename_i hguard
          push_neg at hguard
          have hre := Option.some.inj hr
          subst hre
          exact ⟨hguard.1, hguard.2.1⟩

/-- Shrink-stability of a single-candidate guard of the shape used by
`hit_triangle`. -/
theorem single_candidate_stable (t u v w : ℚ) (res : Hit × ℕ) (tmin : ℚ)
    (tmax M' : WithTop ℚ) (hM' : M' ≤ tmax) (hres : res.1.t = t) :
    (if t < tmin ∨ (t : WithTop ℚ) > M' ∨ u < 0 ∨ v < 0 ∨ w < 0 then none else some res) =
      (match (if t < tmin ∨ (t : WithTop ℚ) > tmax ∨ u < 0 ∨ v < 0 ∨ w < 0 then none
              else some res) with
       | some r => if (r.1.t : WithTop ℚ) ≤ M' then some r else none
       | none => none) := by
  by_cases h : t < tmin ∨ (t : WithTop ℚ) > tmax ∨ u < 0 ∨ v < 0 ∨ w < 0
  · rw [if_pos h]
    have h' : t < tmin ∨ (t : WithTop ℚ) > M' ∨ u < 0 ∨ v < 0 ∨ w < 0 := by
      rcases h with h | h | h
      · exact Or.inl h
      · exact Or.inr (Or.inl (lt_of_le_of_lt hM' h))
      · exact Or.inr (Or.inr h)
    rw [if_pos h']
  · rw [if_neg h]
    push_neg at h
    obtain ⟨h₁, h₂, h₃, h₄, h₅⟩ := h
    by_cases hM : (t : WithTop ℚ) ≤ M'
    · rw [if_neg (by push_neg; exact ⟨h₁, hM, h₃, h₄, h₅⟩)]
      show _ = if (res.1.t : WithTop ℚ) ≤ M' then some res else none
      rw [if_pos (by rw [hres]; exact hM)]
    · rw [if_pos (Or.inr (Or.inl (not_le.mp hM)))]
      show _ = if (res.1.t : WithTop ℚ) ≤ M' then some res else none
      rw [if_neg (by rw [hres]; exact hM)]

theorem hit_triangle_stable (triangle mesh : ℕ) (ray : Ray) (sd : SceneData)
    (M' : WithTop ℚ) (hM' : M' ≤ ray.t_max) :
    hit_triangle triangle mesh (shrunk ray M') sd =
      match hit_triangle triangle mesh ray sd with
      | some r => if (r.1.t : WithTop ℚ) ≤ M' then some r else none
      | none => none := by
  have hdir : (shrunk ray M').direction = ray.direction := rfl
  have horig : (shrunk ray M').origin = ray.origin := rfl
  have htmin : (shrunk ray M').t_min = ray.t_min := rfl
  have htmax : (shrunk ray M').t_max = M' := rfl
  have hat : ∀ t, (shrunk ray M').at' t = ray.at' t := fun _ => rfl
  simp only [hit_triangle, hdir, horig, htmin, htmax, hat]
  cases hm : sd.mesh_table[mesh]? with
  | none => rfl
  | some m =>
    dsimp only
    cases htri : m.get_triangle triangle with
    | none => rfl
    | some tri =>
      obtain ⟨v₀, v₁, v₂⟩ := tri
      dsimp only
      split
      · rfl
      · exact single_candidate_stable _ _ _ _ _ _ _ _ hM' rfl

/-! ## C1 development, part 4: candidate filtering and the `hit_list` bridge -/

/-- Keep a candidate only when its `t` still fits under a shrunk `t_max`
(the shape the stability half of `HitGood` produces). -/
def filt (M : WithTop ℚ) (c : Option (Hit × ℕ)) : Option (Hit × ℕ) :=
  match c with
  | some r => if (r.1.t : WithTop ℚ) ≤ M then some r else none
  | none => none

theorem choose_filt (M : WithTop ℚ) (a b : Option (Hit × ℕ)) :
    choose (filt M a) (filt M b) = filt M (choose a b) := by
  cases a with
  | none => cases b <;> rfl
  | some a₀ =>
    cases b with
    | none => exact choose_none_right _
    | some b₀ =>
      by_cases hab : b₀.1.t ≤ a₀.1.t
      · by_cases hb : (b₀.1.t : WithTop ℚ) ≤ M
        · by_cases ha : (a₀.1.t : WithTop ℚ) ≤ M
          · simp [filt, choose, hab, ha, hb]
          · simp [filt, choose, hab, ha, hb]
        · have ha : ¬ (a₀.1.t : WithTop ℚ) ≤ M := fun h =>
            hb (le_trans (WithTop.coe_le_coe.mpr hab) h)
          simp [filt, choose, hab, ha, hb]
      · have hba : a₀.1.t ≤ b₀.1.t := le_of_lt (not_le.mp hab)
        by_cases ha : (a₀.1.t : WithTop ℚ) ≤ M
        · by_cases hb : (b₀.1.t : WithTop ℚ) ≤ M
          · simp [filt, choose, hab, ha, hb]
          · simp [filt, choose, hab, ha, hb]
        · have hb : ¬ (b₀.1.t : WithTop ℚ) ≤ M := fun h =>
            ha (le_trans (WithTop.coe_le_coe.mpr hba) h)
          simp [filt, choose, hab, ha, hb]

theorem choose_skip (nh : Hit × ℕ) (c : Option (Hit × ℕ)) :
    choose (some nh) (filt (↑nh.1.t) c) = choose (some nh) c := by
  cases c with
  | none => rfl
  | some r =>
    by_cases h : r.1.t ≤ nh.1.t
    · simp [filt, choose, h, WithTop.coe_le_coe]
    · simp [filt, choose, h, WithTop.coe_le_coe]

theorem listBest_filt {α : Type} (cand : WithTop ℚ → α → Option (Hit × ℕ))
    (l : List α) (M M' : WithTop ℚ)
    (hstab : ∀ a ∈ l, cand M' a = filt M' (cand M a)) :
    listBest (l.map (cand M')) = filt M' (listBest (l.map (cand M))) := by
  induction l with
  | nil => rfl
  | cons x rest ih =>
    show choose (cand M' x) (listBest (rest.map (cand M'))) = _
    rw [hstab x (List.mem_cons_self x rest),
      ih (fun a ha => hstab a (List.mem_cons_of_mem _ ha)), choose_filt]
    rfl

/-- The stability half of `HitGood`, phrased through `filt`. -/
theorem hitGood_stable {F : MathFns} {sd : SceneData} {ray : Ray} {h : Hittable}
    (hg : HitGood F sd ray h) (M M' : WithTop ℚ) (hle : M' ≤ M) :
    Hittable.hit F sd h (shrunk ray M') = filt M' (Hittable.hit F sd h (shrunk ray M)) :=
  hg.2 M M' hle

/-- Any `listBest` over per-member hits of `HitGood` members lands inside
the interval. -/
theorem listBest_hits_bounds (F : MathFns) (sd : SceneData) (ray : Ray)
    (l : List Hittable) (hg : ∀ x ∈ l, HitGood F sd ray x) (M : WithTop ℚ)
    (r : Hit × ℕ)
    (h : listBest (l.map fun x => Hittable.hit F sd x (shrunk ray M)) = some r) :
    ray.t_min ≤ r.1.t ∧ (r.1.t : WithTop ℚ) ≤ M := by
  refine listBest_prop (fun r => ray.t_min ≤ r.1.t ∧ (r.1.t : WithTop ℚ) ≤ M) _ ?_ r h
  intro c hc r' hcr'
  obtain ⟨x, hx, hxc⟩ := List.mem_map.mp hc
  exact (hg x hx).1 M r' (hxc.trans hcr')

theorem hitListGo_bridge (F : MathFns) (sd : SceneData) (ray : Ray) :
    ∀ (l : List Hittable), (∀ x ∈ l, HitGood F sd ray x) →
    ∀ (M : WithTop ℚ) (best : Option (Hit × ℕ)),
      (∀ b, best = some b → (b.1.t : WithTop ℚ) = M) →
      hitListGo F sd l (shrunk ray M) best =
        choose best (listBest (l.map fun x => Hittable.hit F sd x (shrunk ray M))) := by
  intro l
  induction l with
  | nil =>
    intro _ M best _
    simp only [hitListGo, List.map_nil]
    exact (choose_none_right best).symm
  | cons x rest ih =>
    intro hgood M best hbest
    have hxmem : x ∈ x :: rest := List.mem_cons_self x rest
    have hrest : ∀ y ∈ rest, HitGood F sd ray y :=
      fun y hy => hgood y (List.mem_cons_of_mem _ hy)
    cases hx : Hittable.hit F sd x (shrunk ray M) with
    | none =>
      simp only [hitListGo, hx]
      rw [ih hrest M best hbest]
      show choose best (listBest (rest.map _)) =
        choose best (listBest ((x :: rest).map _))
      simp only [List.map_cons, listBest, hx]
      rfl
    | some nh =>
      have hnh_le : (nh.1.t : WithTop ℚ) ≤ M := ((hgood x hxmem).1 M nh hx).2
      simp only [hitListGo, hx]
      have hstep : Ray.mk (shrunk ray M).origin (shrunk ray M).direction
          (shrunk ray M).t_min (↑nh.1.t) = shrunk ray (↑nh.1.t) := rfl
      rw [hstep, ih hrest (↑nh.1.t) (some nh) (fun b hb => by cases hb; rfl)]
      rw [listBest_filt (fun m y => Hittable.hit F sd y (shrunk ray m)) rest M (↑nh.1.t)
        (fun y hy => hitGood_stable (hrest y hy) M (↑nh.1.t) hnh_le)]
      rw [choose_skip]
      show choose (some nh) (listBest (rest.map _)) =
        choose best (listBest ((x :: rest).map _))
      simp only [List.map_cons, listBest, hx]
      cases best with
      | none => rfl
      | some b =>
        have hbM : (b.1.t : WithTop ℚ) = M := hbest b rfl
        have hnb : nh.1.t ≤ b.1.t :=
          WithTop.coe_le_coe.mp (by rw [hbM]; exact hnh_le)
        cases hrb : listBest (rest.map fun y => Hittable.hit F sd y (shrunk ray M)) with
        | none =>
          show some nh = choose (some b) (choose (some nh) none)
          simp [choose, hnb]
        | some r =>
          by_cases hr : r.1.t ≤ nh.1.t
          · show choose (some nh) (some r) = choose (some b) (choose (some nh) (some r))
            simp [choose, hr, le_trans hr hnb]
          · show choose (some nh) (some r) = choose (some b) (choose (some nh) (some r))
            simp [choose, hr, hnb]

/-- `hit_list` is the `choose`-fold of the members' hits against the
unshrunk ray: the running `t_max` shrink never changes the outcome, only
seals in the "later member wins ties" choice `listBest` makes. -/
theorem hit_list_eq_listBest (F : MathFns) (sd : SceneData) (ray : Ray)
    (l : List Hittable) (hg : ∀ x ∈ l, HitGood F sd ray x) (M : WithTop ℚ) :
    hit_list F sd l (shrunk ray M) =
      listBest (l.map fun x => Hittable.hit F sd x (shrunk ray M)) := by
  rw [hit_list]
  exact hitListGo_bridge F sd ray l hg M none (fun b hb => by cases hb)

/-! ## C1 development, part 5: goodness of every Bvh-free hittable -/

/-- Hittables with no `Bvh` variant anywhere inside (the aggregates
`Bvh::new` is handed). -/
inductive BvhFree : Hittable → Prop where
  | sphere (center : Rvec3) (radius : ℚ) (material : ℕ) :
      BvhFree (.Sphere center radius material)
  | triangle (triangle mesh : ℕ) : BvhFree (.Triangle triangle mesh)
  | list (l : List Hittable) (h : ∀ x ∈ l, BvhFree x) : BvhFree (.list l)

theorem sphere_hitGood (F : MathFns) (sd : SceneData) (ray : Ray)
    (center : Rvec3) (radius : ℚ) (material : ℕ)
    (ha : 0 < ray.direction.norm_squared)
    (hsq : ∀ x : ℚ, 0 < x → 0 ≤ F.sqrt x) :
    HitGood F sd ray (.Sphere center radius material) := by
  constructor
  · intro M r hr
    simp only [Hittable.hit] at hr
    exact hit_sphere_bounds F center radius material (shrunk ray M) r hr
  · intro M M' hle
    simp only [Hittable.hit]
    exact hit_sphere_stable F center radius material (shrunk ray M) M' ha hsq hle

theorem triangle_hitGood (F : MathFns) (sd : SceneData) (ray : Ray)
    (triangle mesh : ℕ) : HitGood F sd ray (.Triangle triangle mesh) := by
  constructor
  · intro M r hr
    simp only [Hittable.hit] at hr
    exact hit_triangle_bounds triangle mesh (shrunk ray M) sd r hr
  · intro M M' hle
    simp only [Hittable.hit]
    exact hit_triangle_stable triangle mesh (shrunk ray M) sd M' hle

/-- Every Bvh-free hittable is interval-sound and shrink-stable: the two
properties traversal has to rely on. -/
theorem good_of_bvhFree (F : MathFns) (sd : SceneData) (ray : Ray)
    (ha : 0 < ray.direction.norm_squared)
    (hsq : ∀ x : ℚ, 0 < x → 0 ≤ F.sqrt x) :
    ∀ h : Hittable, BvhFree h → HitGood F sd ray h := by
  intro h hfree
  induction hfree with
  | sphere center radius material => exact sphere_hitGood F sd ray center radius material ha hsq
  | triangle t m => exact triangle_hitGood F sd ray t m
  | list l hmem ih =>
    have hgood : ∀ x ∈ l, HitGood F sd ray x := fun x hx => ih x hx
    constructor
    · intro M r hr
      simp only [Hittable.hit] at hr
      rw [hit_list_eq_listBest F sd ray l hgood M] at hr
      exact listBest_hits_bounds F sd ray l hgood M r hr
    · intro M M' hle
      simp only [Hittable.hit]
      show hit_list F sd l (shrunk ray M') = filt M' (hit_list F sd l (shrunk ray M))
      rw [hit_list_eq_listBest F sd ray l hgood M', hit_list_eq_listBest F sd ray l hgood M]
      exact listBest_filt (fun m y => Hittable.hit F sd y (shrunk ray m)) l M M'
        (fun y hy => hitGood_stable (hgood y hy) M M' hle)

/-! ## C1 development, part 6: BVH traversal against `listBest` -/

/-- The expanded ray `hit_node` passes down: `t_max` shrunk to `M`, the
cached reciprocal direction fixed once by `Ray::expand`. -/
def xray (ray : Ray) (M : WithTop ℚ) : RayExpanded :=
  { inner := shrunk ray M
    inv_direction := (Ray.expand ray).inv_direction }

theorem xray_t_max (ray : Ray) : xray ray ray.t_max = ray.expand := rfl

/-- The candidate a `(leaf id, aabb)` table entry contributes at shrunk
`t_max` `M`. -/
def leafCand (F : MathFns) (sd : SceneData) (leaves : List Hittable) (ray : Ray)
    (M : WithTop ℚ) (p : ℕ × AABB) : Option (Hit × ℕ) :=
  match leaves[p.1]? with
  | some x => Hittable.hit F sd x (shrunk ray M)
  | none => none

theorem leafCand_stable (F : MathFns) (sd : SceneData) (leaves : List Hittable)
    (ray : Ray) (hg : ∀ x ∈ leaves, HitGood F sd ray x) (p : ℕ × AABB)
    (M M' : WithTop ℚ) (hle : M' ≤ M) :
    leafCand F sd leaves ray M' p = filt M' (leafCand F sd leaves ray M p) := by
  simp only [leafCand]
  cases hp : leaves[p.1]? with
  | none => rfl
  | some x => exact hitGood_stable (hg x (List.getElem?_mem hp)) M M' hle

theorem listBest_leafCand_bounds (F : MathFns) (sd : SceneData)
    (leaves : List Hittable) (ray : Ray)
    (hg : ∀ x ∈ leaves, HitGood F sd ray x) (ps : List (ℕ × AABB))
    (M : WithTop ℚ) (r : Hit × ℕ)
    (h : listBest (ps.map (leafCand F sd leaves ray M)) = some r) :
    ray.t_min ≤ r.1.t ∧ (r.1.t : WithTop ℚ) ≤ M := by
  refine listBest_prop (fun r => ray.t_min ≤ r.1.t ∧ (r.1.t : WithTop ℚ) ≤ M) _ ?_ r h
  intro c hc r' hcr'
  obtain ⟨p, hp, hpc⟩ := List.mem_map.mp hc
  rw [← hpc] at hcr'
  simp only [leafCand] at hcr'
  cases hx : leaves[p.1]? with
  | none => rw [hx] at hcr'; exact absurd hcr' (by simp)
  | some x =>
    rw [hx] at hcr'
    exact (hg x (List.getElem?_mem hx)).1 M r' hcr'

/-- `subtreeLeaves` only reads indices at or below its argument, so it is
unaffected by appending nodes to the table. -/
theorem subtreeLeaves_append (nodes ext : List BvhNode) :
    ∀ node, node < nodes.length →
      subtreeLeaves (nodes ++ ext) node = subtreeLeaves nodes node := by
  intro node
  induction node using Nat.strong_induction_on with
  | _ node ih =>
    intro hnode
    rw [subtreeLeaves, subtreeLeaves, List.getElem?_append_left hnode]
    cases hn : nodes[node]? with
    | none => rfl
    | some nd =>
      cases nd with
      | Leaf bb lid => rfl
      | Branch bb left right =>
        dsimp only
        by_cases hlr : left < node ∧ right < node
        · rw [if_pos hlr, if_pos hlr,
            ih left hlr.1 (lt_trans hlr.1 hnode),
            ih right hlr.2 (lt_trans hlr.2 hnode)]
        · rw [if_neg hlr, if_neg hlr]

/-- Well-formedness of a node table (as `make_bvh` guarantees): leaf ids
index the leaf list, branch children precede their parent. -/
abbrev WfTable (leaves : List Hittable) (nodes : List BvhNode) : Prop :=
  ∀ (n : ℕ) (nd : BvhNode), nodes[n]? = some nd →
    match nd with
    | BvhNode.Leaf _ lid => lid < leaves.length
    | BvhNode.Branch _ left right => left < n ∧ right < n

/-- `Bvh::hit_node` computes exactly the `choose`-fold over the leaf
candidates of the subtree, provided the node boxes never cull a subtree
that still holds a hit (`hcol`). -/
theorem hitNode_eq_listBest (F : MathFns) (sd : SceneData) (ray : Ray)
    (leaves : List Hittable) (nodes : List BvhNode)
    (hwf : WfTable leaves nodes)
    (hg : ∀ x ∈ leaves, HitGood F sd ray x)
    (hcol : ∀ n nd, nodes[n]? = some nd → ∀ M : WithTop ℚ,
        listBest ((subtreeLeaves nodes n).map (leafCand F sd leaves ray M)) ≠ none →
        nd.bounding_box.collide (xray ray M) = true) :
    ∀ (node : ℕ) (M : WithTop ℚ),
      hitNode F sd leaves nodes (xray ray M) node =
        listBest ((subtreeLeaves nodes node).map (leafCand F sd leaves ray M)) := by
  intro node
  induction node using Nat.strong_induction_on with
  | _ node ih =>
    intro M
    rw [hitNode, subtreeLeaves]
    cases hn : nodes[node]? with
    | none => rfl
    | some nd =>
      cases nd with
      | Leaf aabb lid =>
        dsimp only
        have hlid : lid < leaves.length := hwf node _ hn
        have hx : leaves[lid]? = some leaves[lid] := List.getElem?_eq_getElem hlid
        by_cases hc : aabb.collide (xray ray M) = true
        · rw [if_pos hc]
          split
          · rename_i x hx'
            simp only [List.map_cons, List.map_nil, listBest, leafCand, hx']
            rw [choose_none_right]
            rfl
          · rename_i hx'
            rw [hx'] at hx
            exact absurd hx (by simp)
        · rw [if_neg hc]
          cases hLB : listBest ([(lid, aabb)].map (leafCand F sd leaves ray M)) with
          | none => rfl
          | some r =>
            exact absurd (hcol node _ hn M (by rw [subtreeLeaves, hn, hLB]; simp)) hc
      | Branch aabb left right =>
        dsimp only
        have hlr : left < node ∧ right < node := hwf node _ hn
        rw [dif_pos hlr, if_pos hlr]
        by_cases hc : aabb.collide (xray ray M) = true
        · rw [if_pos hc]
          cases hL : hitNode F sd leaves nodes (xray ray M) left with
          | none =>
            dsimp only
            have hLB : listBest ((subtreeLeaves nodes left).map
                (leafCand F sd leaves ray M)) = none := (ih left hlr.1 M).symm.trans hL
            rw [ih right hlr.2 M, List.map_append, listBest_append, hLB]
            rfl
          | some lh =>
            dsimp only
            have hLB : listBest ((subtreeLeaves nodes left).map
                (leafCand F sd leaves ray M)) = some lh := (ih left hlr.1 M).symm.trans hL
            have hstep : RayExpanded.mk
                (Ray.mk (xray ray M).inner.origin (xray ray M).inner.direction
                  (xray ray M).inner.t_min (↑lh.1.t))
                (xray ray M).inv_direction = xray ray (↑lh.1.t) := rfl
            rw [hstep, ih right hlr.2 (↑lh.1.t), List.map_append, listBest_append, hLB]
            have hlhM : (lh.1.t : WithTop ℚ) ≤ M :=
              (listBest_leafCand_bounds F sd leaves ray hg _ M lh hLB).2
            rw [listBest_filt (leafCand F sd leaves ray) _ M (↑lh.1.t)
              (fun p _ => leafCand_stable F sd leaves ray hg p M (↑lh.1.t) hlhM)]
            cases hRB : listBest ((subtreeLeaves nodes right).map
                (leafCand F sd leaves ray M)) with
            | none => rfl
            | some rh =>
              by_cases hr : rh.1.t ≤ lh.1.t
              · simp only [filt, WithTop.coe_le_coe, if_pos hr]
                simp [choose, hr]
              · simp only [filt, WithTop.coe_le_coe, if_neg hr]
                simp [choose, hr]
        · rw [if_neg hc]
          cases hLB : listBest (((subtreeLeaves nodes left ++ subtreeLeaves nodes right)).map
              (leafCand F sd leaves ray M)) with
          | none => rfl
          | some r =>
            refine absurd (hcol node _ hn M ?_) hc
            rw [subtreeLeaves, hn]
            dsimp only
            rw [if_pos hlr, hLB]
            simp

/-! ## C1/C4 development, part 7: invariants of the `make_bvh` construction -/

theorem AABB.union_assoc (a b c : AABB) :
    (a.union b).union c = a.union (b.union c) := by
  simp [AABB.union, inf_assoc, sup_assoc]

/-- The union-fold of the boxes in a `(leaf id, aabb)` list (the box a
subtree with those leaves covers). -/
def unionList : List (ℕ × AABB) → AABB
  | [] => AABB.default
  | p :: rest => rest.foldl (fun acc q => acc.union q.2) p.2

theorem foldl_union_cons (B : List (ℕ × AABB)) :
    ∀ (u v : AABB), B.foldl (fun acc q => acc.union q.2) (u.union v) =
      u.union (B.foldl (fun acc q => acc.union q.2) v) := by
  induction B with
  | nil => intro u v; rfl
  | cons q B ih =>
    intro u v
    show B.foldl _ ((u.union v).union q.2) = _
    rw [AABB.union_assoc, ih]
    rfl

theorem unionList_append (A B : List (ℕ × AABB)) (hA : A ≠ []) (hB : B ≠ []) :
    unionList (A ++ B) = (unionList A).union (unionList B) := by
  cases A with
  | nil => exact absurd rfl hA
  | cons a A₀ =>
    cases B with
    | nil => exact absurd rfl hB
    | cons b B₀ =>
      show (A₀ ++ b :: B₀).foldl _ a.2 = _
      rw [List.foldl_append]
      show B₀.foldl _ ((unionList (a :: A₀)).union b.2) = _
      rw [foldl_union_cons]
      rfl

/-- The structural invariants `make_bvh` establishes on every node it
appends: leaf entries come from `content`, branch children precede their
parent (and were appended by this same call), a branch's box is the union
of its children's boxes, and the subtree of the returned root holds
exactly the `content` pairs (as the spec's "append children, then a
parent whose AABB is the union of the two children's boxes" describes). -/
theorem make_bvh_inv : ∀ (n : ℕ) (content : List (ℕ × AABB)), content.length = n →
    ∀ (sort_axis : ℕ) (nodes₀ : List BvhNode) (root : ℕ) (nodes : List BvhNode),
      make_bvh content sort_axis nodes₀ = some (root, nodes) →
      (∀ (j : ℕ) (nd : BvhNode), nodes[j]? = some nd → nodes₀.length ≤ j →
          (match nd with
           | BvhNode.Leaf bb lid => (lid, bb) ∈ content
           | BvhNode.Branch bb left right =>
             nodes₀.length ≤ left ∧ left < j ∧ nodes₀.length ≤ right ∧ right < j ∧
             ∃ ln rn, nodes[left]? = some ln ∧ nodes[right]? = some rn ∧
               bb = ln.bounding_box.union rn.bounding_box)) ∧
      nodes₀.length ≤ root ∧
      (subtreeLeaves nodes root).Perm content ∧
      ∃ rootnd, nodes[root]? = some rootnd ∧
        rootnd.bounding_box = unionList (subtreeLeaves nodes root) := by
  intro n
  induction n using Nat.strong_induction_on with
  | _ n IH =>
    intro content hlen sort_axis nodes₀ root nodes h
    cases content with
    | nil =>
      rw [make_bvh.eq_def] at h
      exact absurd h (by simp)
    | cons p tail =>
      cases tail with
      | nil =>
        obtain ⟨leaf, aabb⟩ := p
        rw [show make_bvh [(leaf, aabb)] sort_axis nodes₀ =
          some (nodes₀.length, nodes₀ ++ [BvhNode.Leaf aabb leaf]) from by
            simp [make_bvh]] at h
        have hpair := Option.some.inj h
        have hroot : nodes₀.length = root := congrArg Prod.fst hpair
        have hnodes : nodes₀ ++ [BvhNode.Leaf aabb leaf] = nodes := congrArg Prod.snd hpair
        subst hroot
        subst hnodes
        refine ⟨?_, le_refl _, ?_, ?_⟩
        · intro j nd hj hj0
          have hjlt : j < (nodes₀ ++ [BvhNode.Leaf aabb leaf]).length :=
            (List.getElem?_eq_some.mp hj).1
          have hjeq : j = nodes₀.length := by simp at hjlt; omega
          subst hjeq
          rw [List.getElem?_concat_length] at hj
          have hnd := Option.some.inj hj
          subst hnd
          show (leaf, aabb) ∈ [(leaf, aabb)]
          simp
        · rw [subtreeLeaves, List.getElem?_concat_length]
        · refine ⟨BvhNode.Leaf aabb leaf, List.getElem?_concat_length _ _, ?_⟩
          rw [subtreeLeaves, List.getElem?_concat_length]
          rfl
      | cons q rest =>
        subst hlen
        rw [show make_bvh (p :: q :: rest) sort_axis nodes₀ =
          (match make_bvh (split (p :: q :: rest) sort_axis).1 ((sort_axis + 1) % 3) nodes₀ with
            | none => none
            | some (left, nodes₁) =>
              match make_bvh (split (p :: q :: rest) sort_axis).2 ((sort_axis + 1) % 3) nodes₁ with
              | none => none
              | some (right, nodes₂) =>
                match nodes₂[left]?, nodes₂[right]? with
                | some ln, some rn =>
                  some (nodes₂.length,
                    nodes₂ ++ [BvhNode.Branch (ln.bounding_box.union rn.bounding_box) left right])
                | _, _ => none) from by rw [make_bvh]] at h
        obtain ⟨hsplit1, hsplit2⟩ := split_lengths (p :: q :: rest) sort_axis
        have hp1ne : (split (p :: q :: rest) sort_axis).1 ≠ [] := by
          intro h0; rw [h0] at hsplit1; simp at hsplit1; omega
        have hp2ne : (split (p :: q :: rest) sort_axis).2 ≠ [] := by
          intro h0; rw [h0] at hsplit2; simp at hsplit2; omega
        have hlt1 : (split (p :: q :: rest) sort_axis).1.length < (p :: q :: rest).length := by
          rw [hsplit1]; simp; omega
        have hlt2 : (split (p :: q :: rest) sort_axis).2.length < (p :: q :: rest).length := by
          rw [hsplit2]; simp; omega
        cases hm₁ : make_bvh (split (p :: q :: rest) sort_axis).1 ((sort_axis + 1) % 3) nodes₀ with
        | none => rw [hm₁] at h; exact absurd h (by simp)
        | some pr₁ =>
          obtain ⟨left, nodes₁⟩ := pr₁
          rw [hm₁] at h
          dsimp only at h
          cases hm₂ : make_bvh (split (p :: q :: rest) sort_axis).2 ((sort_axis + 1) % 3) nodes₁ with
          | none => rw [hm₂] at h; exact absurd h (by simp)
          | some pr₂ =>
            obtain ⟨right, nodes₂⟩ := pr₂
            rw [hm₂] at h
            dsimp only at h
            cases hln : nodes₂[left]? with
            | none => rw [hln] at h; exact absurd h (by simp)
            | some ln =>
              cases hrn : nodes₂[right]? with
              | none => rw [hln, hrn] at h; exact absurd h (by simp)
              | some rn =>
                rw [hln, hrn] at h
                dsimp only at h
                have hpair := Option.some.inj h
                have hroot : nodes₂.length = root := congrArg Prod.fst hpair
                have hnodes : nodes₂ ++
                    [BvhNode.Branch (ln.bounding_box.union rn.bounding_box) left right] =
                    nodes := congrArg Prod.snd hpair
                subst hroot
                subst hnodes
                obtain ⟨ext₁, hext₁ne, heq₁⟩ := make_bvh_shape
                  (split (p :: q :: rest) sort_axis).1.length _ rfl hp1ne
                  ((sort_axis + 1) % 3) nodes₀
                obtain ⟨ext₂, hext₂ne, heq₂⟩ := make_bvh_shape
                  (split (p :: q :: rest) sort_axis).2.length _ rfl hp2ne
                  ((sort_axis + 1) % 3) nodes₁
                have hsh₁ := Option.some.inj (hm₁.symm.trans heq₁)
                have hsh₂ := Option.some.inj (hm₂.symm.trans heq₂)
                have hn₁e : nodes₁ = nodes₀ ++ ext₁ := congrArg Prod.snd hsh₁
                have hn₂e : nodes₂ = nodes₁ ++ ext₂ := congrArg Prod.snd hsh₂
                have hle : left = (nodes₀ ++ ext₁).length - 1 := congrArg Prod.fst hsh₁
                have hre : right = (nodes₁ ++ ext₂).length - 1 := congrArg Prod.fst hsh₂
                have hext₁pos : 0 < ext₁.length := List.length_pos.mpr hext₁ne
                have hext₂pos : 0 < ext₂.length := List.length_pos.mpr hext₂ne
                have hlen₁ : nodes₁.length = nodes₀.length + ext₁.length := by
                  rw [hn₁e]; exact List.length_append _ _
                have hlen₂ : nodes₂.length = nodes₁.length + ext₂.length := by
                  rw [hn₂e]; exact List.length_append _ _
                obtain ⟨inv₁, hleft₀, hperm₁, ln₁, hln₁, hbox₁⟩ := IH
                  (split (p :: q :: rest) sort_axis).1.length hlt1 _ rfl
                  ((sort_axis + 1) % 3) nodes₀ left nodes₁ hm₁
                obtain ⟨inv₂, hright₁, hperm₂, rn₂, hrn₂, hbox₂⟩ := IH
                  (split (p :: q :: rest) sort_axis).2.length hlt2 _ rfl
                  ((sort_axis + 1) % 3) nodes₁ right nodes₂ hm₂
                have hleft_lt : left < nodes₁.length := by
                  rw [hle]
                  simp only [List.length_append]
                  omega
                have hright_lt : right < nodes₂.length := by
                  rw [hre]
                  simp only [List.length_append]
                  omega
                have hn01 : nodes₀.length ≤ nodes₁.length := by omega
                have hn12 : nodes₁.length ≤ nodes₂.length := by omega
                -- getElem? transports
                have hA : ∀ (k : ℕ), k < nodes₂.length →
                    (nodes₂ ++ [BvhNode.Branch (ln.bounding_box.union rn.bounding_box)
                      left right])[k]? = nodes₂[k]? :=
                  fun k hk => List.getElem?_append_left hk
                have hB : ∀ (k : ℕ), k < nodes₁.length → nodes₂[k]? = nodes₁[k]? := by
                  intro k hk; rw [hn₂e]; exact List.getElem?_append_left hk
                -- membership transports into the original content
                have hmem1 : ∀ x : ℕ × AABB, x ∈ (split (p :: q :: rest) sort_axis).1 →
                    x ∈ p :: q :: rest := by
                  intro x hx
                  have h1 : (split (p :: q :: rest) sort_axis).1 =
                      ((p :: q :: rest).mergeSort fun x y =>
                        centroidKey x.2 sort_axis ≤ centroidKey y.2 sort_axis).take
                      (((p :: q :: rest).mergeSort fun x y =>
                        centroidKey x.2 sort_axis ≤ centroidKey y.2 sort_axis).length / 2) := rfl
                  rw [h1] at hx
                  exact (List.mergeSort_perm _ _).mem_iff.mp (List.mem_of_mem_take hx)
                have hmem2 : ∀ x : ℕ × AABB, x ∈ (split (p :: q :: rest) sort_axis).2 →
                    x ∈ p :: q :: rest := by
                  intro x hx
                  have h2 : (split (p :: q :: rest) sort_axis).2 =
                      ((p :: q :: rest).mergeSort fun x y =>
                        centroidKey x.2 sort_axis ≤ centroidKey y.2 sort_axis).drop
                      (((p :: q :: rest).mergeSort fun x y =>
                        centroidKey x.2 sort_axis ≤ centroidKey y.2 sort_axis).length / 2) := rfl
                  rw [h2] at hx
                  exact (List.mergeSort_perm _ _).mem_iff.mp (List.mem_of_mem_drop hx)
                -- subtree transports
                have hassoc : nodes₂ ++ [BvhNode.Branch (ln.bounding_box.union rn.bounding_box)
                    left right] = nodes₁ ++ (ext₂ ++
                    [BvhNode.Branch (ln.bounding_box.union rn.bounding_box) left right]) := by
                  rw [hn₂e, List.append_assoc]
                have hSTleft : subtreeLeaves (nodes₂ ++
                    [BvhNode.Branch (ln.bounding_box.union rn.bounding_box) left right]) left =
                    subtreeLeaves nodes₁ left := by
                  rw [hassoc]
                  exact subtreeLeaves_append nodes₁ _ left hleft_lt
                have hSTright : subtreeLeaves (nodes₂ ++
                    [BvhNode.Branch (ln.bounding_box.union rn.bounding_box) left right]) right =
                    subtreeLeaves nodes₂ right :=
                  subtreeLeaves_append nodes₂ _ right hright_lt
                have hroot_look : (nodes₂ ++ [BvhNode.Branch
                    (ln.bounding_box.union rn.bounding_box) left right])[nodes₂.length]? =
                    some (BvhNode.Branch (ln.bounding_box.union rn.bounding_box) left right) :=
                  List.getElem?_concat_length _ _
                have hST : subtreeLeaves (nodes₂ ++ [BvhNode.Branch
                    (ln.bounding_box.union rn.bounding_box) left right]) nodes₂.length =
                    subtreeLeaves nodes₁ left ++ subtreeLeaves nodes₂ right := by
                  rw [subtreeLeaves, hroot_look]
                  dsimp only
                  rw [if_pos ⟨lt_of_lt_of_le hleft_lt hn12, hright_lt⟩, hSTleft, hSTright]
                have hperm : (subtreeLeaves nodes₁ left ++ subtreeLeaves nodes₂ right).Perm
                    (p :: q :: rest) := by
                  refine (hperm₁.append hperm₂).trans ?_
                  have h12 : (split (p :: q :: rest) sort_axis).1 ++
                      (split (p :: q :: rest) sort_axis).2 =
                      (p :: q :: rest).mergeSort fun x y =>
                        centroidKey x.2 sort_axis ≤ centroidKey y.2 sort_axis := by
                    exact List.take_append_drop _ _
                  rw [h12]
                  exact List.mergeSort_perm _ _
                refine ⟨?_, by omega, ?_, ?_⟩
                · -- the per-node invariant
                  intro j nd hj hj0
                  have hjlt : j < (nodes₂ ++ [BvhNode.Branch
                      (ln.bounding_box.union rn.bounding_box) left right]).length :=
                    (List.getElem?_eq_some.mp hj).1
                  rw [List.length_append] at hjlt
                  simp only [List.length_cons, List.length_nil] at hjlt
                  by_cases hjroot : j = nodes₂.length
                  · subst hjroot
                    rw [hroot_look] at hj
                    have hnd := Option.some.inj hj
                    subst hnd
                    refine ⟨by omega, by omega, by omega, by omega, ln, rn, ?_, ?_, rfl⟩
                    · rw [hA left (lt_of_lt_of_le hleft_lt hn12)]; exact hln
                    · rw [hA right hright_lt]; exact hrn
                  · have hjlt₂ : j < nodes₂.length := by omega
                    rw [hA j hjlt₂] at hj
                    by_cases hj1 : j < nodes₁.length
                    · rw [hB j hj1] at hj
                      have hinv := inv₁ j nd hj hj0
                      cases nd with
                      | Leaf bb lid =>
                        have hmem : (lid, bb) ∈ (split (p :: q :: rest) sort_axis).1 := hinv
                        exact hmem1 _ hmem
                      | Branch bb l r =>
                        obtain ⟨hl0, hlj, hr0, hrj, ln', rn', hln', hrn', hbb⟩ := hinv
                        refine ⟨hl0, hlj, hr0, hrj, ln', rn', ?_, ?_, hbb⟩
                        · rw [hA l (by omega), hB l (by omega)]; exact hln'
                        · rw [hA r (by omega), hB r (by omega)]; exact hrn'
                    · have hinv := inv₂ j nd hj (by omega)
                      cases nd with
                      | Leaf bb lid =>
                        have hmem : (lid, bb) ∈ (split (p :: q :: rest) sort_axis).2 := hinv
                        exact hmem2 _ hmem
                      | Branch bb l r =>
                        obtain ⟨hl0, hlj, hr0, hrj, ln', rn', hln', hrn', hbb⟩ := hinv
                        refine ⟨by omega, hlj, by omega, hrj, ln', rn', ?_, ?_, hbb⟩
                        · rw [hA l (by omega)]; exact hln'
                        · rw [hA r (by omega)]; exact hrn'
                · -- the subtree permutation
                  rw [hST]
                  exact hperm
                · -- the root box
                  refine ⟨BvhNode.Branch (ln.bounding_box.union rn.bounding_box) left right,
                    hroot_look, ?_⟩
                  rw [hST]
                  have hSTl_ne : subtreeLeaves nodes₁ left ≠ [] := by
                    apply List.ne_nil_of_length_pos
                    rw [hperm₁.length_eq]
                    exact List.length_pos.mpr hp1ne
                  have hSTr_ne : subtreeLeaves nodes₂ right ≠ [] := by
                    apply List.ne_nil_of_length_pos
                    rw [hperm₂.length_eq]
                    exact List.length_pos.mpr hp2ne
                  rw [unionList_append _ _ hSTl_ne hSTr_ne]
                  have hlneq : ln = ln₁ :=
                    Option.some.inj (hln.symm.trans ((hB left hleft_lt).trans hln₁))
                  have hrneq : rn = rn₂ := Option.some.inj (hrn.symm.trans hrn₂)
                  show (ln.bounding_box).union rn.bounding_box = _
                  rw [hlneq, hrneq, hbox₁, hbox₂]

/-! ## C1 development, part 8: the content list `Bvh::new` builds -/

theorem mapM_option_spec {α β : Type} (f : α → Option β) :
    ∀ (l : List α) (res : List β), l.mapM f = some res →
      res.length = l.length ∧ ∀ (j : ℕ) (x : α), l[j]? = some x → res[j]? = f x := by
  intro l
  induction l with
  | nil =>
    intro res h
    rw [List.mapM_nil] at h
    have he : ([] : List β) = res := Option.some.inj h
    subst he
    exact ⟨rfl, fun j x hx => by simp at hx⟩
  | cons a l ih =>
    intro res h
    rw [List.mapM_cons] at h
    cases hfa : f a with
    | none => rw [hfa] at h; simp at h
    | some b =>
      rw [hfa] at h
      cases hml : l.mapM f with
      | none => rw [hml] at h; simp at h
      | some bs =>
        rw [hml] at h
        simp only [Option.bind_eq_bind, Option.some_bind, Option.pure_def,
          Option.some.injEq] at h
        subst h
        obtain ⟨ihlen, ihat⟩ := ih bs hml
        refine ⟨by simp [ihlen], ?_⟩
        intro j x hx
        cases j with
        | zero =>
          have hxa : a = x := by simpa using hx
          subst hxa
          simpa using hfa.symm
        | succ k =>
          simp only [List.getElem?_cons_succ] at hx ⊢
          exact ihat k x hx

/-- C1 (amended): for every primitive set and every ray, the BVH built by
`Bvh::new` over that set returns an intersection with exactly the same `t`
as the linear `hit_list` aggregate — and `none` exactly when `hit_list`
returns `none` — provided no node box culls a subtree that still holds a
hit (hypothesis `hcol`; the unamended claim fails exactly there, see the
counterexample: `AABB::collide` tests `t_max > t_min` strictly, so a hit
lying exactly on the slab-interval boundary is culled).  The identical-`t`
phrasing (rather than identical hit records) is also necessary: on ties
the two traversal orders may keep hits of different primitives. -/
theorem c1_bvh_hit_eq_hit_list (F : MathFns) (sd : SceneData)
    (hittables leaves : List Hittable) (nodes : List BvhNode) (root : ℕ) (ray : Ray)
    (hd : 0 < ray.direction.norm_squared)
    (hsq : ∀ x : ℚ, 0 < x → 0 ≤ F.sqrt x)
    (hfree : ∀ x ∈ hittables, BvhFree x)
    (hnew : Bvh.new sd hittables = some (Hittable.Bvh leaves nodes root))
    (hcol : ∀ (k : ℕ) (nd : BvhNode), nodes[k]? = some nd → ∀ M : WithTop ℚ,
        listBest ((subtreeLeaves nodes k).map (leafCand F sd leaves ray M)) ≠ none →
        nd.bounding_box.collide (xray ray M) = true) :
    leaves = hittables ∧
    tOf (Bvh.hit F sd leaves nodes root ray) = tOf (hit_list F sd hittables ray) := by
  rw [Bvh.new] at hnew
  cases hmc : hittables.enum.mapM (fun p =>
      (Hittable.bounding_box sd p.2).map fun bb => ((p.1 : ℕ), bb)) with
  | none =>
    rw [hmc] at hnew
    simp at hnew
  | some content =>
    rw [hmc] at hnew
    simp only [Option.bind_eq_bind, Option.some_bind] at hnew
    cases hmb : make_bvh content 0 [] with
    | none => rw [hmb] at hnew; simp at hnew
    | some pr =>
      obtain ⟨root', nodes'⟩ := pr
      rw [hmb] at hnew
      simp only [Option.some_bind, Option.pure_def, Option.some.injEq,
        Hittable.Bvh.injEq] at hnew
      obtain ⟨hleq, hneq, hreq⟩ := hnew
      subst hleq
      subst hneq
      subst hreq
      refine ⟨rfl, ?_⟩
      -- the content built by Bvh::new pairs each index with its box
      obtain ⟨hclen, hcat⟩ := mapM_option_spec _ hittables.enum content hmc
      have hclen' : content.length = hittables.length := by
        rw [hclen, List.enum_length]
      have hcontent_at : ∀ (j : ℕ), j < hittables.length →
          ∃ x bb, hittables[j]? = some x ∧ Hittable.bounding_box sd x = some bb ∧
            content[j]? = some (j, bb) := by
        intro j hj
        have he : hittables.enum[j]? = some (j, hittables[j]) := by
          rw [List.getElem?_enum, List.getElem?_eq_getElem hj]
          rfl
        have hcj := hcat j (j, hittables[j]) he
        have hjc : j < content.length := by omega
        cases hbb : Hittable.bounding_box sd hittables[j] with
        | none =>
          rw [hbb] at hcj
          rw [List.getElem?_eq_getElem hjc] at hcj
          simp at hcj
        | some bb =>
          rw [hbb] at hcj
          exact ⟨hittables[j], bb, List.getElem?_eq_getElem hj, hbb, by rw [hcj]; rfl⟩
      have hids : ∀ p ∈ content, p.1 < hittables.length := by
        intro p hp
        obtain ⟨j, hjlt, hje⟩ := List.getElem_of_mem hp
        have hj? : content[j]? = some p := by rw [List.getElem?_eq_getElem hjlt, hje]
        have hjh : j < hittables.length := by omega
        obtain ⟨x, bb, -, -, hcj⟩ := hcontent_at j hjh
        have hpj : p = (j, bb) := Option.some.inj (hj?.symm.trans hcj)
        rw [hpj]
        exact hjh
      -- the invariants of the built table
      obtain ⟨hinv, -, hperm, -⟩ :=
        make_bvh_inv content.length content rfl 0 [] root' nodes' hmb
      have hwf : WfTable hittables nodes' := by
        intro k nd hk
        have := hinv k nd hk (Nat.zero_le k)
        cases nd with
        | Leaf bb lid => exact hids _ this
        | Branch bb l r =>
          obtain ⟨-, hlk, -, hrk, -⟩ := this
          exact ⟨hlk, hrk⟩
      have hg : ∀ x ∈ hittables, HitGood F sd ray x :=
        fun x hx => good_of_bvhFree F sd ray hd hsq x (hfree x hx)
      -- the candidate lists agree entrywise
      have hmapeq : content.map (leafCand F sd hittables ray ray.t_max) =
          hittables.map (fun x => Hittable.hit F sd x (shrunk ray ray.t_max)) := by
        apply List.ext_getElem?
        intro k
        rw [List.getElem?_map, List.getElem?_map]
        by_cases hk : k < hittables.length
        · obtain ⟨x, bb, hxk, -, hck⟩ := hcontent_at k hk
          rw [hck, hxk]
          simp only [Option.map_some']
          rw [leafCand]
          rw [hxk]
        · rw [List.getElem?_eq_none (by omega), List.getElem?_eq_none (by omega)]
          rfl
      calc tOf (Bvh.hit F sd hittables nodes' root' ray)
          = tOf (hitNode F sd hittables nodes' (xray ray ray.t_max) root') := rfl
        _ = tOf (listBest ((subtreeLeaves nodes' root').map
              (leafCand F sd hittables ray ray.t_max))) := by
            rw [hitNode_eq_listBest F sd ray hittables nodes' hwf hg hcol root' ray.t_max]
        _ = listMinT ((subtreeLeaves nodes' root').map
              (leafCand F sd hittables ray ray.t_max)) := tOf_listBest _
        _ = listMinT (content.map (leafCand F sd hittables ray ray.t_max)) :=
            listMinT_perm (hperm.map _)
        _ = listMinT (hittables.map fun x => Hittable.hit F sd x (shrunk ray ray.t_max)) := by
            rw [hmapeq]
        _ = tOf (listBest (hittables.map fun x =>
              Hittable.hit F sd x (shrunk ray ray.t_max))) := (tOf_listBest _).symm
        _ = tOf (hit_list F sd hittables (shrunk ray ray.t_max)) := by
            rw [hit_list_eq_listBest F sd ray hittables hg ray.t_max]
        _ = tOf (hit_list F sd hittables ray) := rfl

/-! ## C1, concrete scene: a unit sphere at the origin under its own BVH -/

/-- Empty tables: the sphere scene needs none. -/
def sdE : SceneData := ⟨[], [], []⟩

/-- The single primitive: a unit sphere at the origin, material 0. -/
def sphE : Hittable := Hittable.Sphere ⟨0, 0, 0⟩ 1 0

/-- Its bounding box, `[-1,1]³`. -/
def boxE : AABB := bounding_box_sphere ⟨0, 0, 0⟩ 1

/-- The node table `Bvh::new` builds over the singleton scene. -/
def nodesE : List BvhNode := [BvhNode.Leaf boxE 0]

/-- The graze ray of the counterexample: it hits the sphere at `t = 1`,
exactly where the slab interval of the box under `t_max = 1` degenerates
to the single point `{1}`, which the strict `collide` test rejects. -/
def rayCE : Ray := ⟨⟨-1, -2, -3⟩, ⟨1, 2, 2⟩, 0, ((1 : ℚ) : WithTop ℚ)⟩

/-- The witness ray: from inside the box toward the sphere, all direction
components nonzero, hit at `t = 3/14` strictly inside the slab interval. -/
def rayWE : Ray := ⟨⟨1/7, 3/14, 3/7⟩, ⟨-2, -3, -6⟩, 0, ⊤⟩

theorem bvh_new_E : Bvh.new sdE [sphE] = some (Hittable.Bvh [sphE] nodesE 0) := by
  rw [Bvh.new]
  have h1 : [sphE].enum.mapM (fun p =>
      (Hittable.bounding_box sdE p.2).map fun bb => ((p.1 : ℕ), bb)) =
      some [(0, boxE)] := by
    show ([(0, sphE)] : List (ℕ × Hittable)).mapM _ = _
    rw [List.mapM_cons, List.mapM_nil]
    simp [Hittable.bounding_box, sphE, boxE]
  rw [h1]
  simp only [Option.bind_eq_bind, Option.some_bind]
  have h2 : make_bvh [(0, boxE)] 0 [] = some (0, nodesE) := by
    simp [make_bvh, nodesE]
  rw [h2]
  rfl

theorem sphere_hit_CE :
    hit_sphere defaultFns ⟨0, 0, 0⟩ 1 0 rayCE =
      some (⟨1, ⟨0, 0, -1⟩, ⟨0, 0, -1⟩, ⟨1/2, 1/2⟩⟩, 0) := by
  have hsq4 : defaultFns.sqrt 4 = 2 := by
    norm_num [defaultFns, ratSqrt, show ((4:ℚ).num = 4) from rfl,
      show ((4:ℚ).den = 1) from rfl, show Int.toNat 4 = 4 from rfl,
      show Nat.sqrt 4 = 2 from by rw [show (4:ℕ) = 2*2 from rfl, Nat.sqrt_eq],
      Nat.sqrt_one]
  have hsq1 : defaultFns.sqrt 1 = 1 := by
    norm_num [defaultFns, ratSqrt, Rat.num_one, Rat.den_one, Nat.sqrt_one]
  simp only [hit_sphere, rayCE, Rvec3.sub_def, Rvec3.dot, Rvec3.norm_squared]
  norm_num [hsq4]
  norm_num [Ray.at', Rvec3.normalize, Rvec3.norm_squared, Rvec3.dot, TAU, PI,
    defaultFns, ratSqrt, Rat.num_one, Rat.den_one, Nat.sqrt_one]

theorem collide_CE : boxE.collide rayCE.expand = false := by
  simp only [AABB.collide, Ray.expand, rayCE, boxE, bounding_box_sphere,
    Rvec3.component_mul, Rvec3.sub_def, Rvec3.add_def]
  norm_num

/-- C1 counterexample: the unamended claim is false.  On the singleton
scene `[sphE]` with its own BVH, the graze ray hits the sphere at `t = 1`
(`hit_list` returns it), but the BVH root box culls the subtree — the slab
interval under `t_max = 1` degenerates to the point `{1}` and
`AABB::collide` tests `t_max > t_min` strictly — so `Bvh::hit` returns
`none` while `hit_list` returns a hit. -/
theorem c1_counterexample :
    Bvh.new sdE [sphE] = some (Hittable.Bvh [sphE] nodesE 0) ∧
    Bvh.hit defaultFns sdE [sphE] nodesE 0 rayCE = none ∧
    tOf (hit_list defaultFns sdE [sphE] rayCE) = some 1 := by
  refine ⟨bvh_new_E, ?_, ?_⟩
  · rw [Bvh.hit, hitNode]
    simp [nodesE, collide_CE]
  · have hx : Hittable.hit defaultFns sdE sphE rayCE =
        some (⟨1, ⟨0, 0, -1⟩, ⟨0, 0, -1⟩, ⟨1/2, 1/2⟩⟩, 0) := by
      rw [show sphE = Hittable.Sphere ⟨0, 0, 0⟩ 1 0 from rfl, Hittable.hit]
      exact sphere_hit_CE
    simp [hit_list, hitListGo, hx, tOf]

theorem sphere_hit_WE (M : WithTop ℚ) :
    hit_sphere defaultFns ⟨0, 0, 0⟩ 1 0 (shrunk rayWE M) =
      if ((3/14 : ℚ) : WithTop ℚ) > M then none
      else some (⟨3/14, ⟨-2/7, -3/7, -6/7⟩, ⟨-2/7, -3/7, -6/7⟩, ⟨1/2, 1/2⟩⟩, 0) := by
  have hsq49 : defaultFns.sqrt 49 = 7 := by
    norm_num [defaultFns, ratSqrt, show ((49:ℚ).num = 49) from rfl,
      show ((49:ℚ).den = 1) from rfl, show Int.toNat 49 = 49 from rfl,
      show Nat.sqrt 49 = 7 from by rw [show (49:ℕ) = 7*7 from rfl, Nat.sqrt_eq],
      Nat.sqrt_one]
  have hsq1 : defaultFns.sqrt 1 = 1 := by
    norm_num [defaultFns, ratSqrt, Rat.num_one, Rat.den_one, Nat.sqrt_one]
  have ho : (shrunk rayWE M).origin = ⟨1/7, 3/14, 3/7⟩ := rfl
  have hdir : (shrunk rayWE M).direction = ⟨-2, -3, -6⟩ := rfl
  have hmin : (shrunk rayWE M).t_min = 0 := rfl
  have hmax : (shrunk rayWE M).t_max = M := rfl
  simp only [hit_sphere, ho, hdir, hmin, hmax, Rvec3.sub_def, Rvec3.dot,
    Rvec3.norm_squared]
  norm_num [hsq49]
  by_cases hM : ((3/14 : ℚ) : WithTop ℚ) > M
  · rw [if_pos hM, if_pos hM]
    rfl
  · rw [if_neg hM, if_neg hM]
    norm_num [Ray.at', shrunk, rayWE, Rvec3.normalize, Rvec3.norm_squared, Rvec3.dot,
      TAU, PI, defaultFns, ratSqrt, Rat.num_one, Rat.den_one, Nat.sqrt_one]

theorem hcolWE : ∀ (k : ℕ) (nd : BvhNode), nodesE[k]? = some nd → ∀ M : WithTop ℚ,
    listBest ((subtreeLeaves nodesE k).map (leafCand defaultFns sdE [sphE] rayWE M)) ≠ none →
    nd.bounding_box.collide (xray rayWE M) = true := by
  intro k nd hk M hne
  cases k with
  | succ k => simp [nodesE] at hk
  | zero =>
    have hnd : BvhNode.Leaf boxE 0 = nd := by simpa [nodesE] using hk
    subst hnd
    have hst : subtreeLeaves nodesE 0 = [(0, boxE)] := by
      rw [subtreeLeaves]
      rfl
    have hcand : leafCand defaultFns sdE [sphE] rayWE M (0, boxE) =
        hit_sphere defaultFns ⟨0, 0, 0⟩ 1 0 (shrunk rayWE M) := by
      show Hittable.hit defaultFns sdE sphE (shrunk rayWE M) = _
      rw [show sphE = Hittable.Sphere ⟨0, 0, 0⟩ 1 0 from rfl, Hittable.hit]
    have hM : ¬ ((3/14 : ℚ) : WithTop ℚ) > M := by
      intro hgt
      apply hne
      rw [hst]
      simp only [List.map_cons, List.map_nil, listBest]
      rw [choose_none_right, hcand, sphere_hit_WE, if_pos hgt]
    have hM0 : (0 : WithTop ℚ) < M :=
      lt_of_lt_of_le (by exact_mod_cast (by norm_num : (0 : ℚ) < 3/14)) (not_lt.mp hM)
    show boxE.collide (xray rayWE M) = true
    simp only [AABB.collide, boxE, bounding_box_sphere, xray, shrunk, rayWE, Ray.expand,
      Rvec3.component_mul, Rvec3.sub_def, Rvec3.add_def]
    norm_num
    exact hM0

/-- C1 witness: the amended equivalence applied to the concrete singleton
sphere scene and the witness ray; both sides yield the hit at `t = 3/14`. -/
theorem c1_bvh_hit_eq_hit_list_witness :
    Bvh.new sdE [sphE] = some (Hittable.Bvh [sphE] nodesE 0) ∧
    tOf (Bvh.hit defaultFns sdE [sphE] nodesE 0 rayWE) =
      tOf (hit_list defaultFns sdE [sphE] rayWE) ∧
    tOf (hit_list defaultFns sdE [sphE] rayWE) = some (3/14) := by
  refine ⟨bvh_new_E, ?_, ?_⟩
  · exact (c1_bvh_hit_eq_hit_list defaultFns sdE [sphE] [sphE] nodesE 0 rayWE
      (by norm_num [rayWE, Rvec3.norm_squared, Rvec3.dot])
      (fun x _ => ratSqrt_nonneg x)
      (by
        intro x hx
        simp at hx
        subst hx
        exact BvhFree.sphere ⟨0, 0, 0⟩ 1 0)
      bvh_new_E hcolWE).2
  · have hx : Hittable.hit defaultFns sdE sphE rayWE =
        some (⟨3/14, ⟨-2/7, -3/7, -6/7⟩, ⟨-2/7, -3/7, -6/7⟩, ⟨1/2, 1/2⟩⟩, 0) := by
      rw [show sphE = Hittable.Sphere ⟨0, 0, 0⟩ 1 0 from rfl, Hittable.hit]
      have hW := sphere_hit_WE ⊤
      rw [show shrunk rayWE ⊤ = rayWE from rfl] at hW
      rw [hW, if_neg (by simp)]
    simp [hit_list, hitListGo, hx, tOf]

/-! ## C4: the box invariants of the constructed BVH -/

/-- C4: in every BVH built by `Bvh::new`: (i) every branch node's AABB is
exactly the union of its two children's AABBs; (ii) the root node's AABB is
the union-fold of all leaf AABBs of the tree (the subtree leaf list of the
root); (iii) every leaf node stores exactly the bounding box of the
primitive whose index it carries. -/
theorem c4_bvh_boxes (sd : SceneData) (hittables leaves : List Hittable)
    (nodes : List BvhNode) (root : ℕ)
    (hnew : Bvh.new sd hittables = some (Hittable.Bvh leaves nodes root)) :
    (∀ (j : ℕ) (bb : AABB) (l r : ℕ), nodes[j]? = some (BvhNode.Branch bb l r) →
        ∃ ln rn, nodes[l]? = some ln ∧ nodes[r]? = some rn ∧
          bb = ln.bounding_box.union rn.bounding_box) ∧
    (∃ rootnd, nodes[root]? = some rootnd ∧
        rootnd.bounding_box = unionList (subtreeLeaves nodes root)) ∧
    (∀ (j : ℕ) (bb : AABB) (lid : ℕ), nodes[j]? = some (BvhNode.Leaf bb lid) →
        ∃ x, hittables[lid]? = some x ∧ Hittable.bounding_box sd x = some bb) := by
  rw [Bvh.new] at hnew
  cases hmc : hittables.enum.mapM (fun p =>
      (Hittable.bounding_box sd p.2).map fun bb => ((p.1 : ℕ), bb)) with
  | none =>
    rw [hmc] at hnew
    simp at hnew
  | some content =>
    rw [hmc] at hnew
    simp only [Option.bind_eq_bind, Option.some_bind] at hnew
    cases hmb : make_bvh content 0 [] with
    | none => rw [hmb] at hnew; simp at hnew
    | some pr =>
      obtain ⟨root', nodes'⟩ := pr
      rw [hmb] at hnew
      simp only [Option.some_bind, Option.pure_def, Option.some.injEq,
        Hittable.Bvh.injEq] at hnew
      obtain ⟨hleq, hneq, hreq⟩ := hnew
      subst hleq
      subst hneq
      subst hreq
      obtain ⟨hclen, hcat⟩ := mapM_option_spec _ hittables.enum content hmc
      have hclen' : content.length = hittables.length := by
        rw [hclen, List.enum_length]
      have hcontent_at : ∀ (j : ℕ), j < hittables.length →
          ∃ x bb, hittables[j]? = some x ∧ Hittable.bounding_box sd x = some bb ∧
            content[j]? = some (j, bb) := by
        intro j hj
        have he : hittables.enum[j]? = some (j, hittables[j]) := by
          rw [List.getElem?_enum, List.getElem?_eq_getElem hj]
          rfl
        have hcj := hcat j (j, hittables[j]) he
        have hjc : j < content.length := by omega
        cases hbb : Hittable.bounding_box sd hittables[j] with
        | none =>
          rw [hbb] at hcj
          rw [List.getElem?_eq_getElem hjc] at hcj
          simp at hcj
        | some bb =>
          rw [hbb] at hcj
          exact ⟨hittables[j], bb, List.getElem?_eq_getElem hj, hbb, by rw [hcj]; rfl⟩
      obtain ⟨hinv, -, -, hrootbox⟩ :=
        make_bvh_inv content.length content rfl 0 [] root' nodes' hmb
      refine ⟨?_, hrootbox, ?_⟩
      · intro j bb l r hj
        have h := hinv j (BvhNode.Branch bb l r) hj (Nat.zero_le j)
        obtain ⟨-, -, -, -, ln, rn, hln, hrn, hbb⟩ := h
        exact ⟨ln, rn, hln, hrn, hbb⟩
      · intro j bb lid hj
        have hmem : (lid, bb) ∈ content := hinv j (BvhNode.Leaf bb lid) hj (Nat.zero_le j)
        obtain ⟨k, hklt, hke⟩ := List.getElem_of_mem hmem
        have hk? : content[k]? = some (lid, bb) := by
          rw [List.getElem?_eq_getElem hklt, hke]
        have hkh : k < hittables.length := by omega
        obtain ⟨x, bb', hxk, hbb', hck⟩ := hcontent_at k hkh
        have hpq : ((lid : ℕ), bb) = ((k : ℕ), bb') :=
          Option.some.inj (hk?.symm.trans hck)
        have hlidk : lid = k := congrArg Prod.fst hpq
        have hbbeq : bb = bb' := congrArg Prod.snd hpq
        subst hlidk
        subst hbbeq
        exact ⟨x, hxk, hbb'⟩

/-- C4 witness: the invariants evaluated on the concrete singleton scene
(whose table is the single leaf `nodesE`). -/
theorem c4_bvh_boxes_witness :
    Bvh.new sdE [sphE] = some (Hittable.Bvh [sphE] nodesE 0) ∧
    (∃ rootnd, nodesE[0]? = some rootnd ∧
        rootnd.bounding_box = unionList (subtreeLeaves nodesE 0)) ∧
    (∀ (j : ℕ) (bb : AABB) (lid : ℕ), nodesE[j]? = some (BvhNode.Leaf bb lid) →
        ∃ x, [sphE][lid]? = some x ∧ Hittable.bounding_box sdE x = some bb) :=
  ⟨bvh_new_E, (c4_bvh_boxes sdE [sphE] [sphE] nodesE 0 bvh_new_E).2.1,
    (c4_bvh_boxes sdE [sphE] [sphE] nodesE 0 bvh_new_E).2.2⟩

end RT
